import Mathlib

/-!
# Verification of the zune-jpeg baseline decoder core

A shallow embedding, in Lean 4, of the decoding core of the `zune-jpeg`
JPEG decoder (bit reader, Huffman table construction, entropy decoding,
IDCT fast path, start-of-scan parsing, output buffer sizing), together
with theorems settling the frozen specification claims.

Machine integers are modelled as `Nat` (unsigned) and `Int` (signed) with
explicit wrapping (`% 2^w`, two's complement re-centering) wherever the
source relies on wrapping semantics.  Fallible Rust code (functions
returning `Result`, and code that can panic on an out-of-bounds index)
is modelled with `Except DecodeError`.
-/

set_option maxRecDepth 100000

namespace ZuneJpeg

/-! ## Machine integer helpers -/

/-- Wrap a natural number to an unsigned 64-bit value (`u64` semantics). -/
def wrap64 (n : Nat) : Nat := n % 2 ^ 64

/-- Two's-complement wrap of an integer to `i16`. -/
def wrap16 (x : Int) : Int := (x + 2 ^ 15) % 2 ^ 16 - 2 ^ 15

/-- Two's-complement wrap of an integer to `i32`. -/
def wrap32 (x : Int) : Int := (x + 2 ^ 31) % 2 ^ 32 - 2 ^ 31

/-- Rust `<<` on `i32`: bits shifted out of the top are discarded. -/
def i32_shl (a : Int) (n : Nat) : Int := wrap32 (a * 2 ^ n)

/-- Rust `>>` on `i32` (arithmetic shift right): floor division by `2^n`,
which is exactly the two's-complement arithmetic shift for in-range
values. -/
def i32_sar (a : Int) (n : Nat) : Int := Int.fdiv a (2 ^ n)

theorem wrap16_eq_of_bounds (x : Int) (h1 : -2 ^ 15 ≤ x) (h2 : x < 2 ^ 15) :
    wrap16 x = x := by
  unfold wrap16
  omega

theorem wrap32_eq_of_bounds (x : Int) (h1 : -2 ^ 31 ≤ x) (h2 : x < 2 ^ 31) :
    wrap32 x = x := by
  unfold wrap32
  omega

theorem i32_sar_31_neg (a : Int) (h1 : -2 ^ 31 ≤ a) (h2 : a < 0) :
    i32_sar a 31 = -1 := by
  unfold i32_sar
  rw [Int.fdiv_eq_ediv _ (by norm_num)]
  omega

theorem i32_sar_31_nonneg (a : Int) (h1 : 0 ≤ a) (h2 : a < 2 ^ 31) :
    i32_sar a 31 = 0 := by
  unfold i32_sar
  rw [Int.fdiv_eq_ediv _ (by norm_num)]
  omega

theorem land_neg_one (m : Int) : Int.land (-1) m = m := by
  rcases m with n | n
  · show Int.land (Int.negSucc 0) (Int.ofNat n) = Int.ofNat n
    simp only [Int.land]
    congr 1
    simp [Nat.ldiff, Nat.bitwise]
  · show Int.land (Int.negSucc 0) (Int.negSucc n) = Int.negSucc n
    simp only [Int.land]
    congr 1
    simp

theorem land_zero_left (m : Int) : Int.land 0 m = 0 := by
  rcases m with n | n
  · show Int.land (Int.ofNat 0) (Int.ofNat n) = 0
    simp only [Int.land]
    simp
  · show Int.land (Int.ofNat 0) (Int.negSucc n) = 0
    simp only [Int.land]
    simp [Nat.ldiff, Nat.bitwise]

/-! ## `huff_extend` (src/bitstream.rs, lines 758-765)

```rust
fn huff_extend(x: i32, s: i32) -> i32
{
    (x) + ((((x) - (1 << ((s) - 1))) >> 31) & (((-1) << (s)) + 1))
}
``` -/

def huff_extend (x s : Int) : Int :=
  x + Int.land (i32_sar (x - i32_shl 1 (s - 1).toNat) 31) (i32_shl (-1) s.toNat + 1)

/-- **C5.** For every `s` in `1..=16` and every `v` with `0 ≤ v < 2^s`,
`huff_extend(v, s)` returns `v` if `v ≥ 2^(s−1)` and returns `v − 2^s + 1`
otherwise: the branch-free bit trick in the source sign-extends an `s`-bit
magnitude exactly as specified. -/
theorem huff_extend_spec (s : Int) (v : Int) (hs1 : 1 ≤ s) (hs2 : s ≤ 16)
    (hv0 : 0 ≤ v) (hv : v < 2 ^ s.toNat) :
    huff_extend v s = if 2 ^ (s - 1).toNat ≤ v then v else v - 2 ^ s.toNat + 1 := by
  have hsn : s.toNat ≤ 16 := by omega
  have hsn1 : (s - 1).toNat ≤ 15 := by omega
  have hp1 : (2 : Int) ^ (s - 1).toNat ≤ 2 ^ 15 :=
    pow_le_pow_right₀ (by norm_num) hsn1
  have hp2 : (2 : Int) ^ s.toNat ≤ 2 ^ 16 :=
    pow_le_pow_right₀ (by norm_num) hsn
  have hp1' : (0 : Int) < 2 ^ (s - 1).toNat := by positivity
  have hp2' : (0 : Int) < 2 ^ s.toNat := by positivity
  have hshl1 : i32_shl 1 (s - 1).toNat = 2 ^ (s - 1).toNat := by
    unfold i32_shl
    rw [one_mul, wrap32_eq_of_bounds _ (by omega) (by omega)]
  have hshl2 : i32_shl (-1) s.toNat = -2 ^ s.toNat := by
    unfold i32_shl
    rw [neg_one_mul, wrap32_eq_of_bounds _ (by omega) (by omega)]
  unfold huff_extend
  rw [hshl1, hshl2]
  by_cases hc : 2 ^ (s - 1).toNat ≤ v
  · rw [i32_sar_31_nonneg _ (by omega) (by omega)]
    rw [land_zero_left, add_zero, if_pos hc]
  · rw [i32_sar_31_neg _ (by omega) (by omega)]
    rw [land_neg_one, if_neg hc]
    ring

/-- Concrete instance of `huff_extend_spec`: `huff_extend 2 3 = 2 − 8 + 1 = −5`
(the magnitude `2` of bit-size `3` has a clear top bit, so it codes `−5`). -/
theorem huff_extend_spec_witness : huff_extend 2 3 = -5 := by
  have h := huff_extend_spec 3 2 (by norm_num) (by norm_num) (by norm_num)
    (by decide)
  rw [h]
  decide

instance {e a : Type} [DecidableEq e] [DecidableEq a] :
    DecidableEq (Except e a)
  | .error x, .error y => decidable_of_iff (x = y) (by simp)
  | .error _, .ok _ => isFalse (by simp)
  | .ok _, .error _ => isFalse (by simp)
  | .ok x, .ok y => decidable_of_iff (x = y) (by simp)

/-! ## Errors and markers -/

/-- Abstract error kinds of `errors.rs` (the file itself is not under the
provided sources; only the constructors used by the embedded code are
modelled, message strings dropped).  `oobIndex` models a Rust panic from an
out-of-bounds slice index. -/
inductive DecodeErrors where
  | format
  | huffmanDecode
  | sofError
  | sosError
  | oobIndex
deriving DecidableEq

/-- Modelled from the spec: `marker.rs` is not part of the provided sources.
Section 4.1 lists the recognized markers: SOI(D8), EOI(D9), SOS(DA),
DQT(DB), DNL(DC), DRI(DD), DHT(C4), SOFn(C0..CF except C4/C8/CC),
RST0..RST7(D0..D7), APP0..APP15(E0..EF), COM(FE). -/
inductive Marker where
  | SOI
  | EOI
  | SOS
  | DQT
  | DNL
  | DRI
  | DHT
  | SOF (n : Nat)
  | RST (n : Nat)
  | APP (n : Nat)
  | COM
deriving DecidableEq

/-- Modelled from the spec: byte-to-marker decoding for the marker list of
section 4.1; unknown bytes give `none` (the source reports a `Format`
error for those). -/
def Marker.fromU8 (b : Nat) : Option Marker :=
  if b = 0xD8 then some .SOI
  else if b = 0xD9 then some .EOI
  else if b = 0xDA then some .SOS
  else if b = 0xDB then some .DQT
  else if b = 0xDC then some .DNL
  else if b = 0xDD then some .DRI
  else if b = 0xC4 then some .DHT
  else if 0xD0 ≤ b ∧ b ≤ 0xD7 then some (.RST (b - 0xD0))
  else if 0xE0 ≤ b ∧ b ≤ 0xEF then some (.APP (b - 0xE0))
  else if b = 0xFE then some .COM
  else if 0xC0 ≤ b ∧ b ≤ 0xCF ∧ b ≠ 0xC8 ∧ b ≠ 0xCC then some (.SOF (b - 0xC0))
  else none

/-! ## The byte reader (`Cursor<Vec<u8>>`) and `read_u8`

```rust
fn read_u8(reader: &mut Cursor<Vec<u8>>) -> u64
{
    let pos = reader.position();
    reader.set_position(pos + 1);
    // if we have nothing left fill buffer with zeroes
    u64::from(*reader.get_ref().get(pos as usize).unwrap_or(&0))
}
``` -/

structure Reader where
  data : List Nat
  pos : Nat
deriving DecidableEq

/-- `read_u8` (src/bitstream.rs, lines 767-779): always advances the
position by one and yields `0` once the cursor is at or past the end. -/
def read_u8 (r : Reader) : Nat × Reader :=
  (r.data.getD r.pos 0, ⟨r.data, r.pos + 1⟩)

/-! ## Bit-hack helpers of refill (`has_zero` / `has_byte`) -/

/-- `u32` bitwise complement. -/
def u32_not (x : Nat) : Nat := 0xFFFFFFFF ^^^ (x % 2 ^ 32)

/-- `has_zero` (src/bitstream.rs, lines 781-786): Stanford bithack for "some
byte of this `u32` is zero"; the inner addition is a wrapping `u32` add. -/
def has_zero (v : Nat) : Bool :=
  decide (u32_not ((((v &&& 0x7F7F7F7F) + 0x7F7F7F7F) % 2 ^ 32 ||| v)
    ||| 0x7F7F7F7F) ≠ 0)

/-- `has_byte` (src/bitstream.rs, lines 787-792). -/
def has_byte (b val : Nat) : Bool :=
  has_zero (b ^^^ (0xFFFFFFFF / 255 * val))

/-! ## The bit stream -/

structure BitStream where
  buffer : Nat
  aligned_buffer : Nat
  bits_left : Nat
  marker : Option Marker
  successive_high : Nat
  successive_low : Nat
  spec_start : Nat
  spec_end : Nat
  eob_run : Int
deriving DecidableEq

/-- `BitStream::new`. -/
def BitStream.new : BitStream :=
  { buffer := 0, aligned_buffer := 0, bits_left := 0, marker := none,
    successive_high := 0, successive_low := 0, spec_start := 0,
    spec_end := 0, eob_run := 0 }

/-- `BitStream::new_progressive`. -/
def BitStream.new_progressive (ah al ss se : Nat) : BitStream :=
  { buffer := 0, aligned_buffer := 0, bits_left := 0, marker := none,
    successive_high := ah, successive_low := al, spec_start := ss,
    spec_end := se, eob_run := 0 }

/-- `BitStream::peek_bits::<LOOKAHEAD>`. -/
def BitStream.peek_bits (st : BitStream) (lookahead : Nat) : Nat :=
  st.aligned_buffer >>> (64 - lookahead)

/-- `BitStream::drop_bits` (saturating subtraction is `Nat` subtraction;
the left shift of the `u64` aligned buffer wraps). -/
def BitStream.drop_bits (st : BitStream) (n : Nat) : BitStream :=
  { st with bits_left := st.bits_left - n,
            aligned_buffer := wrap64 (st.aligned_buffer <<< n) }

/-- `u64::rotate_left` (the rotation amount is taken mod 64). -/
def rotl64 (a n : Nat) : Nat :=
  wrap64 (a <<< (n % 64)) + a >>> (64 - n % 64)

/-- `BitStream::get_bits`: rotate the aligned buffer left, mask out the low
`n_bits`, and saturating-subtract from `bits_left`. -/
def BitStream.get_bits (st : BitStream) (n_bits : Nat) : Nat × BitStream :=
  let mask := (1 <<< n_bits) - 1
  let ab := rotl64 st.aligned_buffer n_bits
  (ab &&& mask,
   { st with aligned_buffer := ab, bits_left := st.bits_left - n_bits })

/-- `BitStream::get_bit`. -/
def BitStream.get_bit (st : BitStream) : Nat × BitStream :=
  (st.aligned_buffer >>> 63, st.drop_bits 1)

/-- `BitStream::reset`. -/
def BitStream.reset (st : BitStream) : BitStream :=
  { st with bits_left := 0, marker := none, buffer := 0,
            aligned_buffer := 0, eob_run := 0 }

/-- `BitStream::update_progressive_params`. -/
def BitStream.update_progressive_params (st : BitStream) (ah al ss se : Nat) :
    BitStream :=
  { st with successive_high := ah, successive_low := al,
            spec_start := ss, spec_end := se }

/-! ## Refill -/

/-- The fill-byte run inside the `refill!` macro: `while next_byte == 0xFF
{ next_byte = read_u8(reader); }`, entered here with the next byte still to
be read.  Reads past the end of the data yield `0`, which stops the run. -/
def skip_fill_bytes (r : Reader) : Nat × Reader :=
  if hb : r.data.getD r.pos 0 = 0xFF then skip_fill_bytes ⟨r.data, r.pos + 1⟩
  else (r.data.getD r.pos 0, ⟨r.data, r.pos + 1⟩)
termination_by r.data.length - r.pos
decreasing_by
  have hlt : r.pos < r.data.length := by
    by_contra hge
    rw [List.getD_eq_default _ _ (by omega)] at hb
    exact absurd hb (by norm_num)
  simpa using Nat.sub_lt_sub_left hlt (Nat.lt_succ_self _)

/-- Result of one expansion of the `refill!` macro: either continue with
the updated state, or stop early because a marker was latched
(`return Ok(false)` in the source). -/
inductive ByteStepResult where
  | cont (st : BitStream) (r : Reader)
  | markerFound (st : BitStream) (r : Reader)

/-- One expansion of the `refill!` macro (src/bitstream.rs, lines 167-217):
append one byte to the buffer; on `0xFF` inspect the next byte for byte
stuffing (`0x00`), fill-byte runs (`0xFF…`), or a marker, undoing the
append and latching the marker in the last case. -/
def refill_byte (st : BitStream) (r : Reader) :
    Except DecodeErrors ByteStepResult :=
  let (byte, r1) := read_u8 r
  let buffer := wrap64 (st.buffer <<< 8) ||| byte
  let bits_left := st.bits_left + 8
  if byte = 0xFF then
    let (next_byte, r2) := read_u8 r1
    if next_byte ≠ 0 then
      let (nb, r3) := if next_byte = 0xFF then skip_fill_bytes r2
        else (next_byte, r2)
      if nb ≠ 0 then
        -- undo the byte append and latch the marker
        let buffer' := buffer / 2 ^ 8
        let bits_left' := bits_left - 8
        let aligned' := if bits_left' ≠ 0 then wrap64 (buffer' <<< (64 - bits_left'))
          else st.aligned_buffer
        match Marker.fromU8 nb with
        | none => .error .format
        | some m =>
            .ok (.markerFound
              { st with buffer := buffer', bits_left := bits_left',
                        aligned_buffer := aligned', marker := some m } r3)
      else
        .ok (.cont { st with buffer := buffer, bits_left := bits_left } r3)
    else
      .ok (.cont { st with buffer := buffer, bits_left := bits_left } r2)
  else
    .ok (.cont { st with buffer := buffer, bits_left := bits_left } r1)

/-- The four big-endian bytes `data[pos..pos+4]` as a `u32`. -/
def be32_at (r : Reader) : Nat :=
  r.data.getD r.pos 0 <<< 24 ||| r.data.getD (r.pos + 1) 0 <<< 16
    ||| r.data.getD (r.pos + 2) 0 <<< 8 ||| r.data.getD (r.pos + 3) 0

/-- `BitStream::refill` (src/bitstream.rs, lines 160-277).  Returns the new
state, the new reader, and the `bool` of the source's `Result<bool, _>`
(`false` exactly on the early marker return). -/
def BitStream.refill (st : BitStream) (r : Reader) :
    Except DecodeErrors (BitStream × Reader × Bool) := do
  if st.bits_left ≤ 32 ∧ st.marker = none then
    if r.pos + 4 < r.data.length ∧ has_byte (be32_at r) 255 = false then
      let msb := be32_at r
      let buffer := wrap64 (st.buffer <<< 32) ||| msb
      let bits_left := st.bits_left + 32
      let st' := { st with buffer := buffer, bits_left := bits_left,
                           aligned_buffer := wrap64 (buffer <<< (64 - bits_left)) }
      return (st', ⟨r.data, r.pos + 4⟩, true)
    else
      match ← refill_byte st r with
      | .markerFound st1 r1 => return (st1, r1, false)
      | .cont st1 r1 =>
      match ← refill_byte st1 r1 with
      | .markerFound st2 r2 => return (st2, r2, false)
      | .cont st2 r2 =>
      match ← refill_byte st2 r2 with
      | .markerFound st3 r3 => return (st3, r3, false)
      | .cont st3 r3 =>
      match ← refill_byte st3 r3 with
      | .markerFound st4 r4 => return (st4, r4, false)
      | .cont st4 r4 =>
        return ({ st4 with
          aligned_buffer := wrap64 (st4.buffer <<< (64 - st4.bits_left)) },
          r4, true)
  else if st.marker.isSome then
    return ({ st with bits_left := 63 }, r, true)
  else
    return (st, r, true)

/-! ## Behaviour of `refill` on exhausted input (claim C10) -/

theorem refill_byte_exhausted (st : BitStream) (d : List Nat) (pos : Nat)
    (hpos : d.length ≤ pos) :
    refill_byte st ⟨d, pos⟩ =
      .ok (.cont { st with buffer := wrap64 (st.buffer <<< 8),
                           bits_left := st.bits_left + 8 } ⟨d, pos + 1⟩) := by
  unfold refill_byte read_u8
  simp only [List.getD_eq_default _ _ hpos]
  norm_num

/-- **C10.** For every cursor position at or past the end of the input,
`read_u8` returns byte value `0` and still advances the position by one;
consequently `refill` (with no marker pending and `bits_left ≤ 32`, i.e.
whenever it refills at all) does not error on exhausted input: it consumes
four synthesized zero bytes, appending 32 zero bits to the buffer. -/
theorem wrap64_shl_wrap64 (x n : Nat) :
    wrap64 (wrap64 x <<< n) = wrap64 (x <<< n) := by
  simp [wrap64, Nat.shiftLeft_eq, Nat.mod_mul_mod]

/-- **C10.** For every cursor position at or past the end of the input,
`read_u8` returns byte value `0` and still advances the position by one;
consequently `refill` (with no marker pending and `bits_left ≤ 32`, i.e.
whenever it refills at all) does not error on exhausted input: it consumes
four synthesized zero bytes, appending 32 zero bits to the buffer. -/
theorem read_u8_refill_exhausted (st : BitStream) (r : Reader)
    (hpos : r.data.length ≤ r.pos) (hm : st.marker = none)
    (hbl : st.bits_left ≤ 32) :
    read_u8 r = (0, ⟨r.data, r.pos + 1⟩) ∧
    BitStream.refill st r =
      .ok ({ st with buffer := wrap64 (st.buffer <<< 32),
                     bits_left := st.bits_left + 32,
                     aligned_buffer :=
                       wrap64 (wrap64 (st.buffer <<< 32) <<<
                         (64 - (st.bits_left + 32))) },
           ⟨r.data, r.pos + 4⟩, true) := by
  obtain ⟨d, pos⟩ := r
  simp only at hpos
  constructor
  · rw [read_u8, List.getD_eq_default _ _ hpos]
  · have hb : wrap64 (wrap64 (wrap64 (wrap64 (st.buffer <<< 8) <<< 8) <<< 8) <<< 8)
        = wrap64 (st.buffer <<< 32) := by
      simp only [wrap64, Nat.shiftLeft_eq, Nat.mod_mul_mod]
      congr 1
      ring
    unfold BitStream.refill
    rw [if_pos ⟨hbl, hm⟩, if_neg (by simp only [not_and]; omega)]
    rw [refill_byte_exhausted _ _ _ (by omega)]
    simp only [bind, Except.bind]
    rw [refill_byte_exhausted _ _ _ (by omega)]
    simp only [bind, Except.bind]
    rw [refill_byte_exhausted _ _ _ (by omega)]
    simp only [bind, Except.bind]
    rw [refill_byte_exhausted _ _ _ (by omega)]
    simp only [bind, Except.bind, pure, Except.pure]
    simp only [Except.ok.injEq, Prod.mk.injEq, BitStream.mk.injEq,
      Reader.mk.injEq, hb]

/-- Concrete instance of `read_u8_refill_exhausted`: refilling from an empty
input appends 32 zero bits and never errors. -/
theorem read_u8_refill_exhausted_witness :
    BitStream.refill BitStream.new ⟨[], 0⟩ =
      .ok ({ BitStream.new with bits_left := 32 }, ⟨[], 4⟩, true) := by
  have h := (read_u8_refill_exhausted BitStream.new ⟨[], 0⟩ (by simp) rfl
    (by decide)).2
  simpa [BitStream.new, wrap64] using h

/-! ## Refill with a pending marker (claims C6, C7) -/

/-- With a marker pending, `refill` takes its `marker.is_some()` branch:
it only sets `bits_left := 63`, reading nothing. -/
theorem refill_marker_pending (st : BitStream) (r : Reader) (m : Marker)
    (hm : st.marker = some m) :
    BitStream.refill st r = .ok ({ st with bits_left := 63 }, r, true) := by
  unfold BitStream.refill
  rw [if_neg (by simp [hm]), if_pos (by simp [hm])]
  rfl

/-- **C6.** In a bit-reader state with a pending marker (and the alignment
invariant, which `refill` establishes when it latches a marker), `refill`
consumes no input bytes and modifies nothing but `bits_left`, the bits
beyond the `bits_left` genuine ones are all zero (dropping the genuine
bits leaves an all-zero aligned buffer), and the all-zero aligned buffer
is absorbing: every subsequent `peek_bits` returns 0 and every bit-reader
operation (including further marker-pending refills, which also leave the
reader untouched) keeps it all-zero. -/
theorem refill_marker_pending_spec (st : BitStream) (r : Reader) (m : Marker)
    (hm : st.marker = some m) (hbl : st.bits_left ≤ 64)
    (hal : st.aligned_buffer = wrap64 (st.buffer <<< (64 - st.bits_left))) :
    BitStream.refill st r = .ok ({ st with bits_left := 63 }, r, true) ∧
    (st.drop_bits st.bits_left).aligned_buffer = 0 ∧
    (∀ st' : BitStream, st'.aligned_buffer = 0 →
      (∀ n, st'.peek_bits n = 0) ∧
      (∀ n, ((st'.drop_bits n).aligned_buffer = 0 ∧
        ((st'.get_bits n).2).aligned_buffer = 0 ∧ (st'.get_bits n).1 = 0)) ∧
      ((st'.get_bit).2).aligned_buffer = 0 ∧ (st'.get_bit).1 = 0 ∧
      (∀ (r' : Reader) (m' : Marker), st'.marker = some m' →
        BitStream.refill st' r' =
          .ok ({ st' with bits_left := 63 }, r', true))) := by
  refine ⟨refill_marker_pending st r m hm, ?_, ?_⟩
  · rw [BitStream.drop_bits, hal, wrap64_shl_wrap64]
    show wrap64 (st.buffer <<< (64 - st.bits_left) <<< st.bits_left) = 0
    rw [Nat.shiftLeft_eq, Nat.shiftLeft_eq, mul_assoc, ← pow_add]
    have h64 : 64 - st.bits_left + st.bits_left = 64 := by omega
    rw [h64, wrap64, Nat.mul_mod_left]
  · intro st' hz
    refine ⟨?_, ?_, ?_, ?_, ?_⟩
    · intro n
      rw [BitStream.peek_bits, hz]
      simp
    · intro n
      refine ⟨?_, ?_, ?_⟩
      · rw [BitStream.drop_bits, hz]
        simp [wrap64]
      · show rotl64 st'.aligned_buffer n = 0
        rw [hz, rotl64]
        simp [wrap64]
      · show rotl64 st'.aligned_buffer n &&& (1 <<< n - 1) = 0
        rw [hz, rotl64]
        simp [wrap64]
    · rw [BitStream.get_bit, BitStream.drop_bits, hz]
      simp [wrap64]
    · rw [BitStream.get_bit, hz]
      simp
    · intro r' m' hm'
      exact refill_marker_pending st' r' m' hm'

/-- Concrete instance of `refill_marker_pending_spec`: a marker-latched
state with 8 genuine bits left never touches the reader again, and the
synthetic tail after those 8 bits is all zeros. -/
theorem refill_marker_pending_spec_witness :
    BitStream.refill
        { buffer := 0xAB, aligned_buffer := 0xAB <<< 56, bits_left := 8,
          marker := some Marker.EOI, successive_high := 0,
          successive_low := 0, spec_start := 0, spec_end := 0, eob_run := 0 }
        ⟨[1, 2, 3], 0⟩ =
      .ok ({ buffer := 0xAB, aligned_buffer := 0xAB <<< 56, bits_left := 63,
             marker := some Marker.EOI, successive_high := 0,
             successive_low := 0, spec_start := 0, spec_end := 0,
             eob_run := 0 }, ⟨[1, 2, 3], 0⟩, true) ∧
    (BitStream.drop_bits
        { buffer := 0xAB, aligned_buffer := 0xAB <<< 56, bits_left := 8,
          marker := some Marker.EOI, successive_high := 0,
          successive_low := 0, spec_start := 0, spec_end := 0, eob_run := 0 }
        8).aligned_buffer = 0 := by
  have h := refill_marker_pending_spec
    { buffer := 0xAB, aligned_buffer := 0xAB <<< 56, bits_left := 8,
      marker := some Marker.EOI, successive_high := 0,
      successive_low := 0, spec_start := 0, spec_end := 0, eob_run := 0 }
    ⟨[1, 2, 3], 0⟩ Marker.EOI rfl (by decide) (by decide)
  exact ⟨h.1, h.2.1⟩

/-! ## The bit-reader invariant (claim C7) -/

/-- The claimed bit-reader invariant: `bits_left ≤ 64`, and
`aligned_buffer == buffer << (64 − bits_left)` whenever `bits_left > 0`. -/
def BitStream.inv (st : BitStream) : Prop :=
  st.bits_left ≤ 64 ∧ (0 < st.bits_left →
    st.aligned_buffer = wrap64 (st.buffer <<< (64 - st.bits_left)))

instance (st : BitStream) : Decidable st.inv := by
  unfold BitStream.inv
  infer_instance

/-- Case analysis of one `refill!` expansion: a `cont` result adds exactly
8 to `bits_left` and leaves marker and aligned buffer alone; a
`markerFound` result restores `bits_left` and re-establishes the
alignment equation whenever `bits_left` is nonzero. -/
theorem refill_byte_cases (st : BitStream) (r : Reader) (res : ByteStepResult)
    (h : refill_byte st r = .ok res) :
    (∃ st' r', res = .cont st' r' ∧ st'.bits_left = st.bits_left + 8 ∧
       st'.marker = st.marker ∧ st'.aligned_buffer = st.aligned_buffer) ∨
    (∃ st' r', res = .markerFound st' r' ∧ st'.bits_left = st.bits_left ∧
       (0 < st'.bits_left →
         st'.aligned_buffer = wrap64 (st'.buffer <<< (64 - st'.bits_left)))) := by
  unfold refill_byte at h
  simp only [read_u8] at h
  by_cases h1 : r.data.getD r.pos 0 = 0xFF
  · rw [if_pos h1] at h
    by_cases h2 : (⟨r.data, r.pos + 1⟩ : Reader).data.getD
        (⟨r.data, r.pos + 1⟩ : Reader).pos 0 ≠ 0
    · rw [if_pos h2] at h
      set p := if (⟨r.data, r.pos + 1⟩ : Reader).data.getD
          (⟨r.data, r.pos + 1⟩ : Reader).pos 0 = 0xFF then
          skip_fill_bytes ⟨r.data, (⟨r.data, r.pos + 1⟩ : Reader).pos + 1⟩
        else ((⟨r.data, r.pos + 1⟩ : Reader).data.getD
          (⟨r.data, r.pos + 1⟩ : Reader).pos 0,
          ⟨r.data, (⟨r.data, r.pos + 1⟩ : Reader).pos + 1⟩) with hp
      by_cases h3 : p.1 ≠ 0
      · rw [if_pos h3] at h
        rcases h4 : Marker.fromU8 p.1 with _ | mk
        · rw [h4] at h
          exact absurd h (by simp)
        · rw [h4] at h
          simp only [Except.ok.injEq] at h
          subst h
          refine Or.inr ⟨_, _, rfl, by simp, ?_⟩
          dsimp only
          intro hpos
          rw [if_pos (by omega)]
      · rw [if_neg h3] at h
        simp only [Except.ok.injEq] at h
        subst h
        exact Or.inl ⟨_, _, rfl, rfl, rfl, rfl⟩
    · rw [if_neg h2] at h
      simp only [Except.ok.injEq] at h
      subst h
      exact Or.inl ⟨_, _, rfl, rfl, rfl, rfl⟩
  · rw [if_neg h1] at h
    simp only [Except.ok.injEq] at h
    subst h
    exact Or.inl ⟨_, _, rfl, rfl, rfl, rfl⟩

/-- **C7 (amended).** The invariant `bits_left ≤ 64 ∧ (bits_left > 0 →
aligned_buffer = buffer << (64 − bits_left))` holds in the initial state
and is preserved by `reset`, `drop_bits`, `get_bit`, and by `refill` when
no marker is pending; `get_bits` still keeps `bits_left ≤ 64`.  (As the
counterexample shows, `get_bits` and the marker-pending branch of `refill`
do *not* preserve the alignment equation, so the claim's "every bit reader
operation" had to be weakened to this list.) -/
theorem bitreader_inv_preserved (st : BitStream) (r : Reader) (n : Nat)
    (h : st.inv) :
    BitStream.new.inv ∧ (st.reset).inv ∧ (st.drop_bits n).inv ∧
    ((st.get_bit).2).inv ∧ ((st.get_bits n).2).bits_left ≤ 64 ∧
    (st.marker = none → ∀ st' r' b, st.refill r = .ok (st', r', b) →
      st'.inv) := by
  obtain ⟨h1, h2⟩ := h
  have hdrop : ∀ k, (st.drop_bits k).inv := by
    intro k
    refine ⟨by simp [BitStream.drop_bits]; omega, ?_⟩
    simp only [BitStream.drop_bits]
    intro hpos
    rw [h2 (by omega), wrap64_shl_wrap64]
    rw [Nat.shiftLeft_eq, Nat.shiftLeft_eq, mul_assoc, ← pow_add]
    have : 64 - st.bits_left + k = 64 - (st.bits_left - k) := by omega
    rw [this, ← Nat.shiftLeft_eq]
  refine ⟨by decide, ?_, hdrop n, hdrop 1, ?_, ?_⟩
  · exact ⟨by simp [BitStream.reset], by simp [BitStream.reset]⟩
  · simp only [BitStream.get_bits]
    omega
  · intro hm st' r' b href
    unfold BitStream.refill at href
    by_cases hb32 : st.bits_left ≤ 32
    · rw [if_pos ⟨hb32, hm⟩] at href
      by_cases hfast : r.pos + 4 < r.data.length ∧ has_byte (be32_at r) 255 = false
      · rw [if_pos hfast] at href
        dsimp only at href
        simp only [pure, Except.pure, Except.ok.injEq, Prod.mk.injEq] at href
        obtain ⟨rfl, -, -⟩ := href
        exact ⟨by simp; omega, fun _ => rfl⟩
      · rw [if_neg hfast] at href
        cases hs1 : refill_byte st r with
        | error e => rw [hs1] at href; exact absurd href (by simp [bind, Except.bind])
        | ok res1 =>
        rw [hs1] at href
        simp only [bind, Except.bind] at href
        rcases refill_byte_cases _ _ _ hs1 with ⟨s1, r1, rfl, hb1, hmk1, -⟩ |
          ⟨s1, r1, rfl, hb1, hal1⟩
        · dsimp only at href
          cases hs2 : refill_byte s1 r1 with
          | error e => rw [hs2] at href; exact absurd href (by simp [bind, Except.bind])
          | ok res2 =>
          rw [hs2] at href
          simp only [bind, Except.bind] at href
          rcases refill_byte_cases _ _ _ hs2 with ⟨s2, r2, rfl, hb2, hmk2, -⟩ |
            ⟨s2, r2, rfl, hb2, hal2⟩
          · dsimp only at href
            cases hs3 : refill_byte s2 r2 with
            | error e => rw [hs3] at href; exact absurd href (by simp [bind, Except.bind])
            | ok res3 =>
            rw [hs3] at href
            simp only [bind, Except.bind] at href
            rcases refill_byte_cases _ _ _ hs3 with ⟨s3, r3, rfl, hb3, hmk3, -⟩ |
              ⟨s3, r3, rfl, hb3, hal3⟩
            · dsimp only at href
              cases hs4 : refill_byte s3 r3 with
              | error e => rw [hs4] at href; exact absurd href (by simp [bind, Except.bind])
              | ok res4 =>
              rw [hs4] at href
              simp only [bind, Except.bind] at href
              rcases refill_byte_cases _ _ _ hs4 with ⟨s4, r4, rfl, hb4, hmk4, -⟩ |
                ⟨s4, r4, rfl, hb4, hal4⟩
              · dsimp only at href
                simp only [pure, Except.pure, Except.ok.injEq, Prod.mk.injEq] at href
                obtain ⟨rfl, -, -⟩ := href
                exact ⟨by simp; omega, fun _ => rfl⟩
              · dsimp only at href
                simp only [pure, Except.pure, Except.ok.injEq, Prod.mk.injEq] at href
                obtain ⟨rfl, -, -⟩ := href
                exact ⟨by omega, hal4⟩
            · dsimp only at href
              simp only [pure, Except.pure, Except.ok.injEq, Prod.mk.injEq] at href
              obtain ⟨rfl, -, -⟩ := href
              exact ⟨by omega, hal3⟩
          · dsimp only at href
            simp only [pure, Except.pure, Except.ok.injEq, Prod.mk.injEq] at href
            obtain ⟨rfl, -, -⟩ := href
            exact ⟨by omega, hal2⟩
        · dsimp only at href
          simp only [pure, Except.pure, Except.ok.injEq, Prod.mk.injEq] at href
          obtain ⟨rfl, -, -⟩ := href
          exact ⟨by omega, hal1⟩
    · rw [if_neg (by simp [hb32])] at href
      rw [if_neg (by simp [hm])] at href
      simp only [pure, Except.pure, Except.ok.injEq, Prod.mk.injEq] at href
      obtain ⟨rfl, -, -⟩ := href
      exact ⟨h1, h2⟩

/-- Concrete instance of `bitreader_inv_preserved` (the amended C7). -/
theorem bitreader_inv_preserved_witness :
    (BitStream.drop_bits
      { buffer := 0xAB, aligned_buffer := 0xAB <<< 56, bits_left := 8,
        marker := none, successive_high := 0, successive_low := 0,
        spec_start := 0, spec_end := 0, eob_run := 0 } 3).inv := by
  have h := bitreader_inv_preserved
    { buffer := 0xAB, aligned_buffer := 0xAB <<< 56, bits_left := 8,
      marker := none, successive_high := 0, successive_low := 0,
      spec_start := 0, spec_end := 0, eob_run := 0 } ⟨[], 0⟩ 3 (by decide)
  exact h.2.2.1

/-- **C7 (counterexample).** The invariant is *not* preserved by every bit
reader operation: `get_bits` rotates the consumed bits into the low end of
the aligned buffer, and the marker-pending branch of `refill` sets
`bits_left := 63` without touching either buffer; both leave states
violating the alignment equation. -/
theorem bitreader_inv_counterexample :
    (BitStream.inv
      { buffer := 0xAB, aligned_buffer := 0xAB <<< 56, bits_left := 8,
        marker := none, successive_high := 0, successive_low := 0,
        spec_start := 0, spec_end := 0, eob_run := 0 } ∧
     ¬ BitStream.inv ((BitStream.get_bits
      { buffer := 0xAB, aligned_buffer := 0xAB <<< 56, bits_left := 8,
        marker := none, successive_high := 0, successive_low := 0,
        spec_start := 0, spec_end := 0, eob_run := 0 } 4).2)) ∧
    (BitStream.inv
      { buffer := 0xAB, aligned_buffer := 0xAB <<< 56, bits_left := 8,
        marker := some Marker.EOI, successive_high := 0, successive_low := 0,
        spec_start := 0, spec_end := 0, eob_run := 0 } ∧
     BitStream.refill
      { buffer := 0xAB, aligned_buffer := 0xAB <<< 56, bits_left := 8,
        marker := some Marker.EOI, successive_high := 0, successive_low := 0,
        spec_start := 0, spec_end := 0, eob_run := 0 } ⟨[], 0⟩ =
      .ok ({ buffer := 0xAB, aligned_buffer := 0xAB <<< 56, bits_left := 63,
             marker := some Marker.EOI, successive_high := 0,
             successive_low := 0, spec_start := 0, spec_end := 0,
             eob_run := 0 }, ⟨[], 0⟩, true) ∧
     ¬ BitStream.inv
      { buffer := 0xAB, aligned_buffer := 0xAB <<< 56, bits_left := 63,
        marker := some Marker.EOI, successive_high := 0, successive_low := 0,
        spec_start := 0, spec_end := 0, eob_run := 0 }) := by
  refine ⟨⟨by decide, by decide⟩, by decide,
    refill_marker_pending _ ⟨[], 0⟩ Marker.EOI rfl, by decide⟩

/-! ## Huffman table construction (src/huffman.rs) -/

/-- `HUFF_LOOKAHEAD` (src/huffman.rs, line 7). -/
def HUFF_LOOKAHEAD : Nat := 9

/-- `x & (2^n - 1)` on a two's-complement integer is `x mod 2^n`. -/
def i_and_pow2 (x : Int) (n : Nat) : Int := x.emod (2 ^ n)

/-- Derived Huffman table (src/huffman.rs, `struct HuffmanTable`).  The
fixed-size arrays `maxcode[18]`, `offset[18]`, `lookup[512]` and the
optional `ac_lookup[512]` are modelled as functions from the index. -/
structure HuffmanTable where
  maxcode : Nat → Int
  offset : Nat → Int
  lookup : Nat → Int
  ac_lookup : Option (Nat → Int)
  bits : List Nat
  values : List Nat

/-- Point update of a function-modelled array. -/
def updFn (f : Nat → Int) (i : Nat) (v : Int) : Nat → Int :=
  fun j => if j = i then v else f j

/-- Fill `cnt` consecutive entries starting at `start` with `v` (the
`look_bits` fill loops of `make_derived_table`). -/
def fill_range (tbl : Nat → Int) (start cnt : Nat) (v : Int) : Nat → Int :=
  fun j => if start ≤ j ∧ j < start + cnt then v else tbl j

/-- Number of leading entries of the list equal to `si` (the inner
`while i32::from(size[p]) == si` loop). -/
def count_leading (si : Nat) : List Nat → Nat
  | [] => 0
  | l :: ls => if l = si then count_leading si ls + 1 else 0

/-- The code-length list `size[0..num_symbols]` of figure C.1: `bits[l]`
copies of `l` for `l` in `1..=16` (`bits[0]` is unused).  The source
writes into a 257-entry array; callers guarantee `sum(bits) ≤ 256`. -/
def size_list (bits : List Nat) : List Nat :=
  (List.range 16).foldr
    (fun l acc => List.replicate (bits.getD (l + 1) 0) (l + 1) ++ acc) []

/-- Code assignment (the `while size[p] != 0` loop of
`make_derived_table`): assign consecutive integer codes per length,
doubling on each length increment, and reject tables whose codes overflow
their length.  `fuel` bounds the outer loop (lengths are ≤ 16, so 18
rounds always suffice for the lists produced by `size_list`; running out
of fuel is unreachable there). -/
def assign_codes (fuel : Nat) (sizes : List Nat) (si code : Nat) :
    Except DecodeErrors (List Nat) :=
  match sizes with
  | [] => .ok []
  | _ :: _ =>
    match fuel with
    | 0 => .error .huffmanDecode
    | fuel + 1 =>
      let n := count_leading si sizes
      let codes := (List.range n).map (code + ·)
      let code' := code + n
      if 2 ^ si ≤ code' then .error .huffmanDecode
      else
        match assign_codes fuel (sizes.drop n) (si + 1) (code' <<< 1) with
        | .error e => .error e
        | .ok rest => .ok (codes ++ rest)

/-- The `for l in 0..=16` loop deriving `maxcode` and `offset` (lines
99-114 of src/huffman.rs): `maxcode[l] = -1` when no codes of length `l`,
otherwise `offset[l] = p - huff_code[p]` and `maxcode[l] =
huff_code[p + bits[l] - 1]` (the largest code of length `l`, stored
*unshifted* in this source). -/
def build_mo (bits huff : List Nat) : Nat × (Nat → Int) × (Nat → Int) :=
  (List.range 17).foldl
    (fun st l =>
      let p := st.1
      let mc := st.2.1
      let off := st.2.2
      if bits.getD l 0 = 0 then (p, updFn mc l (-1), off)
      else
        let off' := updFn off l ((p : Int) - (huff.getD p 0 : Int))
        let p' := p + bits.getD l 0
        (p', updFn mc l ((huff.getD (p' - 1) 0 : Int)), off'))
    (0, fun _ => 0, fun _ => 0)

/-- The primary `lookup` table (lines 126-143 of src/huffman.rs): every
entry starts as `(HUFF_LOOKAHEAD+1) << HUFF_LOOKAHEAD`; each code of
length `l ≤ 9` fills its `2^(9-l)` left-justified prefixes with
`(l << 9) | symbol` (the symbol is < 2^9, so `|` is `+`). -/
def build_lookup (bits huff values : List Nat) : Nat → Int :=
  (((List.range 9).map (· + 1)).foldl
    (fun st l =>
      (List.range (bits.getD l 0)).foldl
        (fun st _ =>
          let p := st.1
          let tbl := st.2
          let look_bits := huff.getD p 0 <<< (HUFF_LOOKAHEAD - l)
          (p + 1, fill_range tbl look_bits (2 ^ (HUFF_LOOKAHEAD - l))
            ((l : Int) * 2 ^ HUFF_LOOKAHEAD + (values.getD p 0 : Int))))
        st)
    (0, fun _ => ((HUFF_LOOKAHEAD : Int) + 1) * 2 ^ HUFF_LOOKAHEAD)).2

/-- The `fast` symbol-index table of the AC path (lines 147-157): entry
255 means "no symbol", otherwise the index of the symbol whose code (of
length ≤ 9) is a prefix of the entry. -/
def build_fast (huff sizes : List Nat) : Nat → Int :=
  (List.range sizes.length).foldl
    (fun tbl i =>
      let s := sizes.getD i 0
      if s ≤ HUFF_LOOKAHEAD then
        let c := huff.getD i 0 <<< (HUFF_LOOKAHEAD - s)
        fill_range tbl c (2 ^ (HUFF_LOOKAHEAD - s)) (i : Int)
      else tbl)
    (fun _ => (255 : Int))

/-- The combined run/magnitude `fast_ac` table (lines 159-184 of
src/huffman.rs).  For each 9-bit prefix resolving to a symbol `rs` with
magnitude bits `s > 0` and `l + s ≤ 9`, decode the magnitude in place
(`i16` shifts wrap, `& 511` is `mod 512`, `>>` is a division of the
nonnegative masked value) and, when the value fits `-128..=127`, store
`(k << 8) + (run << 4) + (len + mag_bits)`. -/
def build_fast_ac (fast : Nat → Int) (values sizes : List Nat) : Nat → Int :=
  (List.range (2 ^ HUFF_LOOKAHEAD)).foldl
    (fun tbl i =>
      let f := fast i
      if f < 255 then
        let rs := values.getD f.toNat 0
        let run : Int := ((rs >>> 4) &&& 15 : Nat)
        let mag_bits : Int := (rs &&& 15 : Nat)
        let len : Int := (sizes.getD f.toNat 0 : Nat)
        if mag_bits ≠ 0 ∧ len + mag_bits ≤ (HUFF_LOOKAHEAD : Int) then
          let k0 := i_and_pow2 (wrap16 ((i : Int) * 2 ^ len.toNat))
            HUFF_LOOKAHEAD / 2 ^ ((HUFF_LOOKAHEAD : Int) - mag_bits).toNat
          let m : Int := 2 ^ (mag_bits - 1).toNat
          let k := if k0 < m then k0 + (wrap16 (-1 * 2 ^ mag_bits.toNat) + 1)
            else k0
          if -128 ≤ k ∧ k ≤ 127 then
            updFn tbl i (wrap16 (k * 2 ^ 8) + run * 2 ^ 4 + (len + mag_bits))
          else tbl
        else tbl
      else tbl)
    (fun _ => 0)

/-- `HuffmanTable::make_derived_table` (src/huffman.rs, lines 59-201),
with `HuffmanTable::new`'s field initialization folded in.  `values` is
indexed with a `getD 0` default where the source would panic; callers
(`parse_huffman`) always supply `sum(bits)` symbol bytes. -/
def make_derived_table (bits values : List Nat) (is_dc : Bool) :
    Except DecodeErrors HuffmanTable := do
  let sizes := size_list bits
  let huff ← assign_codes 18 sizes (sizes.headD 0) 0
  let mo := build_mo bits huff
  let maxcode := updFn mo.2.1 17 0x000FFFFF
  let offset := updFn mo.2.2 17 0
  let lookup := build_lookup bits huff values
  let ac_lookup := if is_dc then none
    else some (build_fast_ac (build_fast huff sizes) values sizes)
  -- DC tables require all symbols ≤ 15
  if is_dc ∧ (List.range sizes.length).any (fun i => 15 < values.getD i 0) then
    throw .huffmanDecode
  return { maxcode := maxcode, offset := offset, lookup := lookup,
           ac_lookup := ac_lookup, bits := bits, values := values }

/-- `maxcode[l]` of a successfully built table. -/
def maxcodeOf (res : Except DecodeErrors HuffmanTable) (l : Nat) : Option Int :=
  match res with
  | .ok t => some (t.maxcode l)
  | .error _ => none

/-- `fast_ac[i]` of a successfully built AC table. -/
def fastAcOf (res : Except DecodeErrors HuffmanTable) (i : Nat) : Option Int :=
  match res with
  | .ok t => t.ac_lookup.map (fun f => f i)
  | .error _ => none

/-- The packing formula stated by the specification for `fast_ac`
entries: `(value << 10) | (run << 4) | (l + s)`.  The bit fields are
disjoint (`run < 16`, `l + s ≤ 9 < 16`), so the `or` is addition. -/
def spec_fast_ac_pack (value run ls : Int) : Int :=
  value * 2 ^ 10 + run * 2 ^ 4 + ls

/-- The specification's `maxcode` value: the largest code of length `l`
left-justified to 16 bits. -/
def spec_maxcode_left_justified (code : Nat) (l : Nat) : Int :=
  (code : Int) * 2 ^ (16 - l)

/-- **C3 (code bug).** For the AC table with a single symbol `0x01` (run
0, size 1) on a 1-bit code, the built `fast_ac` entry for prefix `128`
(code `1`, magnitude bit `1`, decoded value `+1`) is `(1 << 8) + 2 = 258`
— the source packs the value at bit 8 — whereas the claimed packing
`(value << 10) | (run << 4) | (l+s)` gives `1026`.  The consumer
(`decode_mcu_block`, src/bitstream.rs line 376) unpacks with `fast_ac >>
10` and `(fast_ac >> 4) & 63`, matching the claimed `<< 10` packing, so
the `<< 8` in src/huffman.rs line 180 contradicts the decoder. -/
theorem fast_ac_packing_eval :
    fastAcOf (make_derived_table
      [0, 1, 0, 0, 0, 0, 0, 0, 0, 0, 0, 0, 0, 0, 0, 0, 0] [1] false) 128 =
      some 258 ∧
    fastAcOf (make_derived_table
      [0, 1, 0, 0, 0, 0, 0, 0, 0, 0, 0, 0, 0, 0, 0, 0, 0] [1] false) 0 =
      some (-254) ∧
    spec_fast_ac_pack 1 0 2 = 1026 ∧ (258 : Int) ≠ 1026 ∧
    spec_fast_ac_pack (-1) 0 2 = -1022 ∧ (-254 : Int) ≠ -1022 := by
  refine ⟨by decide, by decide, by decide, by decide, by decide, by decide⟩

/-- **C4 (code bug).** For the table with one code of length 1 and one of
length 2 (largest 2-bit code `0b10 = 2`), the source stores `maxcode[2] =
2` unshifted, whereas the claim (and the slow-path decode macro in
src/bitstream.rs, which compares a 16-bit left-justified `peek_bits::<16>`
against `maxcode` and documents it as "pre-shifted") requires `2 << (16−2)
= 32768`.  The `-1` for absent lengths and the `0x000FFFFF` sentinel do
match the claim. -/
theorem maxcode_unshifted_eval :
    maxcodeOf (make_derived_table
      [0, 1, 1, 0, 0, 0, 0, 0, 0, 0, 0, 0, 0, 0, 0, 0, 0] [5, 6] true) 2 =
      some 2 ∧
    spec_maxcode_left_justified 2 2 = 32768 ∧ (2 : Int) ≠ 32768 ∧
    maxcodeOf (make_derived_table
      [0, 1, 1, 0, 0, 0, 0, 0, 0, 0, 0, 0, 0, 0, 0, 0, 0] [5, 6] true) 3 =
      some (-1) ∧
    maxcodeOf (make_derived_table
      [0, 1, 1, 0, 0, 0, 0, 0, 0, 0, 0, 0, 0, 0, 0, 0, 0] [5, 6] true) 17 =
      some 0x000FFFFF := by
  refine ⟨by decide, by decide, by decide, by decide, by decide⟩

/-! ## Huffman symbol decoding (the `decode_huff!` macro, src/bitstream.rs
lines 49-91) -/

/-- Truncating cast `as u8` of an `i32`. -/
def u8_of_i32 (x : Int) : Nat := (x.emod (2 ^ 8)).toNat

/-- The `while code_length < 17` scan over `maxcode`: first length `l ≥
start` whose left-justified 16-bit window is below `maxcode[l]`;
`maxcode[17]` is a sentinel, and a start beyond 17 is returned as-is
(exactly as the source's loop leaves it). -/
def find_code_length (tbl : HuffmanTable) (symbol : Int) (l : Nat) : Nat :=
  if h : l < 17 then
    if symbol < tbl.maxcode l then l else find_code_length tbl symbol (l + 1)
  else l
termination_by 17 - l

/-- The `decode_huff!` macro: resolve a symbol from the 9-bit lookup entry
`symbol0`, falling back to the 16-bit `maxcode` scan for longer codes, and
drop the consumed bits.  `oobIndex` models the panics the source could hit
on a malformed table (negative shift, `values` out of range). -/
def decode_huff (st : BitStream) (tbl : HuffmanTable) (symbol0 : Int) :
    Except DecodeErrors (Int × BitStream) :=
  let code_length := i32_sar symbol0 HUFF_LOOKAHEAD
  let symbol := i_and_pow2 symbol0 HUFF_LOOKAHEAD
  if (HUFF_LOOKAHEAD : Int) < code_length then
    let symbol : Int := (st.peek_bits 16 : Nat)
    let l := find_code_length tbl symbol code_length.toNat
    if l = 17 then .error .huffmanDecode
    else if 16 < l then .error .oobIndex
    else
      let symbol := i32_sar symbol (16 - l)
      let idx := i_and_pow2 (symbol + tbl.offset l) 8
      match tbl.values.get? idx.toNat with
      | none => .error .oobIndex
      | some v => .ok ((v : Int), st.drop_bits (u8_of_i32 (l : Int)))
  else .ok (symbol, st.drop_bits (u8_of_i32 code_length))

/-! ## Un-zigzag and coefficient blocks -/

/-- Modelled from the spec: `UN_ZIGZAG` lives in `misc.rs`, which is not
part of the provided sources.  Per the glossary it is the "mapping from
the 64-entry zig-zag scan order back to natural row-major 8×8 order" (the
standard JPEG natural-order table); zig-zag then un-zig-zag is the
identity on `0..=63` (§8). -/
def UN_ZIGZAG : List Nat :=
  [0, 1, 8, 16, 9, 2, 3, 10,
   17, 24, 32, 25, 18, 11, 4, 5,
   12, 19, 26, 33, 40, 48, 41, 34,
   27, 20, 13, 6, 7, 14, 21, 28,
   35, 42, 49, 56, 57, 50, 43, 36,
   29, 22, 15, 23, 30, 37, 44, 51,
   58, 59, 52, 45, 38, 31, 39, 46,
   53, 60, 61, 54, 47, 55, 62, 63]

/-- `block[UN_ZIGZAG[k & 63] & 63]` (read). -/
def block_get (block : List Int) (k : Nat) : Int :=
  block.getD (UN_ZIGZAG.getD (k % 64) 0 % 64) 0

/-- `block[UN_ZIGZAG[k & 63] & 63] = v` (write). -/
def block_set (block : List Int) (k : Nat) (v : Int) : List Int :=
  block.set (UN_ZIGZAG.getD (k % 64) 0 % 64) v

/-! ## Progressive AC refinement (src/bitstream.rs, lines 576-728) -/

/-- The `'advance_nonzero` loop of `decode_mcu_ac_refine`: walk positions
`k..=se` (`se` is `self.spec_end`, which no bit-reader operation in the
loop changes), appending a correction bit to each nonzero coefficient and
counting the zero-run `r` down over zero coefficients; stop before the
zero coefficient that takes `r` below 0.  `fuel` bounds the loop (`k`
increases every iteration, so `se + 2` always suffices); it returns the
updated reader state, block, position, and remaining run. -/
def ac_refine_advance (fuel : Nat) (st : BitStream) (rd : Reader)
    (block : List Int) (bit : Int) (se : Nat) (k : Nat) (r : Int) :
    Except DecodeErrors (BitStream × Reader × List Int × Nat × Int) :=
  match fuel with
  | 0 => .error .huffmanDecode
  | fuel + 1 =>
    if k ≤ se then
      let coefficient := block_get block k
      if coefficient ≠ 0 then
        let b := st.get_bit.1
        let st1 := st.get_bit.2
        let block' :=
          if b = 1 ∧ Int.land coefficient bit = 0 then
            if 0 ≤ coefficient then block_set block k (coefficient + bit)
            else block_set block k (coefficient - bit)
          else block
        if st1.bits_left < 1 then
          match st1.refill rd with
          | .error e => .error e
          | .ok (st2, rd2, _) =>
            ac_refine_advance fuel st2 rd2 block' bit se (k + 1) r
        else ac_refine_advance fuel st1 rd block' bit se (k + 1) r
      else
        let r' := r - 1
        if r' < 0 then .ok (st, rd, block, k, r')
        else ac_refine_advance fuel st rd block bit se (k + 1) r'
    else .ok (st, rd, block, k, r)

/-- A trace entry of the refinement scan: the decoded `(run, size)` pair
and, when `size = 1`, the coefficient value literally emitted. -/
def RefineTrace := List (Int × Int × Option Int)

/-- The `'no_eob` loop of `decode_mcu_ac_refine`.  `fuel` bounds the loop
(the position `k` strictly increases each iteration and the loop stops
beyond `se`, so `se + 2` iterations always suffice); the returned list
records every `(run, size)` pair decoded, together with the emitted
coefficient for `size = 1`. -/
def ac_refine_noeob (fuel : Nat) (st : BitStream) (rd : Reader)
    (tbl : HuffmanTable) (block : List Int) (bit : Int) (se : Nat) (k : Nat)
    (trace : List (Int × Int × Option Int)) :
    Except DecodeErrors
      (BitStream × Reader × List Int × Nat × List (Int × Int × Option Int)) :=
  match fuel with
  | 0 => .error .huffmanDecode
  | fuel + 1 =>
    match st.refill rd with
    | .error e => .error e
    | .ok (st, rd, _) =>
      let symbol0 := tbl.lookup (st.peek_bits HUFF_LOOKAHEAD)
      match decode_huff st tbl symbol0 with
      | .error e => .error e
      | .ok (symbol, st) =>
        let r := i32_sar symbol 4
        let s := i_and_pow2 symbol 4
        if s = 0 then
          if r ≠ 15 then
            -- EOB run: 2^r plus the next r bits; handled by the caller
            let eob1 := i32_shl 1 r.toNat
            let g := (st.get_bits (u8_of_i32 r)).1
            let st := (st.get_bits (u8_of_i32 r)).2
            let st := { st with eob_run := eob1 + (g : Int) }
            .ok (st, rd, block, k, trace ++ [(r, s, none)])
          else
            match ac_refine_advance (se + 2) st rd block bit se k r with
            | .error e => .error e
            | .ok (st, rd, block, k, _) =>
              let k := k + 1
              let trace := trace ++ [(r, s, none)]
              if se < k then .ok (st, rd, block, k, trace)
              else ac_refine_noeob fuel st rd tbl block bit se k trace
        else
          if s ≠ 1 then .error .huffmanDecode
          else
            let b := st.get_bit.1
            let st := st.get_bit.2
            let symbol := if b = 1 then bit else -bit
            match ac_refine_advance (se + 2) st rd block bit se k r with
            | .error e => .error e
            | .ok (st, rd, block, k, _) =>
              let block := block_set block k (wrap16 symbol)
              let k := k + 1
              let trace := trace ++ [(r, s, some (wrap16 symbol))]
              if se < k then .ok (st, rd, block, k, trace)
              else ac_refine_noeob fuel st rd tbl block bit se k trace

/-- The EOB-run tail of `decode_mcu_ac_refine` (lines 696-722): apply
correction bits to the nonzero coefficients of the rest of the band
(`get_bit` is consumed only for nonzero coefficients; `fuel` bounds the
loop as in `ac_refine_advance`). -/
def ac_refine_eobrun (fuel : Nat) (st : BitStream) (rd : Reader)
    (block : List Int) (bit : Int) (se : Nat) (k : Nat) :
    Except DecodeErrors (BitStream × Reader × List Int) :=
  match fuel with
  | 0 => .error .huffmanDecode
  | fuel + 1 =>
    if k ≤ se then
      let coefficient := block_get block k
      let st1 := if coefficient ≠ 0 then st.get_bit.2 else st
      let block' :=
        if coefficient ≠ 0 ∧ st.get_bit.1 = 1 ∧ Int.land coefficient bit = 0 then
          if 0 ≤ coefficient then block_set block k (coefficient + bit)
          else block_set block k (coefficient - bit)
        else block
      if st1.bits_left < 1 then
        match st1.refill rd with
        | .error e => .error e
        | .ok (st2, rd2, _) => ac_refine_eobrun fuel st2 rd2 block' bit se (k + 1)
      else ac_refine_eobrun fuel st1 rd block' bit se (k + 1)
    else .ok (st, rd, block)

/-- `BitStream::decode_mcu_ac_refine` (src/bitstream.rs, lines 576-728),
instrumented to also return the decoded `(run, size, emitted)` trace.  The
`spec_end` field is passed explicitly to the loops (no operation inside
changes it). -/
def decode_mcu_ac_refine (st : BitStream) (rd : Reader) (tbl : HuffmanTable)
    (block : List Int) :
    Except DecodeErrors
      (BitStream × Reader × List Int × List (Int × Int × Option Int)) :=
  let bit := wrap16 (i32_shl 1 st.successive_low)
  let se := st.spec_end
  let k := st.spec_start
  let afterNoEob : Except DecodeErrors
      (BitStream × Reader × List Int × Nat ×
        List (Int × Int × Option Int)) :=
    if st.eob_run = 0 then
      ac_refine_noeob (se + 2) st rd tbl block bit se k []
    else .ok (st, rd, block, k, [])
  match afterNoEob with
  | .error e => .error e
  | .ok (st, rd, block, k, trace) =>
    if 0 < st.eob_run then
      let tail : Except DecodeErrors (BitStream × Reader × List Int) :=
        if block.drop 1 ≠ List.replicate 63 (0 : Int) then
          match st.refill rd with
          | .error e => .error e
          | .ok (st, rd, _) => ac_refine_eobrun (se + 2) st rd block bit se k
        else .ok (st, rd, block)
      match tail with
      | .error e => .error e
      | .ok (st, rd, block) =>
        .ok ({ st with eob_run := st.eob_run - 1 }, rd, block, trace)
    else .ok (st, rd, block, trace)



/-- A well-formed refinement-trace entry: size 0 with nothing emitted, or
size 1 emitting exactly `±(1 << succ_low)` (as an `i16`). -/
def refine_entry_ok (bit : Int) (p : Int × Int × Option Int) : Prop :=
  (p.2.1 = 0 ∧ p.2.2 = none) ∨
  (p.2.1 = 1 ∧ (p.2.2 = some (wrap16 bit) ∨ p.2.2 = some (wrap16 (-bit))))

theorem ac_refine_noeob_trace (fuel : Nat) :
    ∀ (st : BitStream) (rd : Reader) (tbl : HuffmanTable) (block : List Int)
      (bit : Int) (se k : Nat) (trace : List (Int × Int × Option Int)) res,
    ac_refine_noeob fuel st rd tbl block bit se k trace = .ok res →
    (∀ p ∈ trace, refine_entry_ok bit p) →
    ∀ p ∈ res.2.2.2.2, refine_entry_ok bit p := by
  induction fuel with
  | zero =>
    intro st rd tbl block bit se k trace res h
    exact absurd h (by simp [ac_refine_noeob])
  | succ fuel ih =>
    intro st rd tbl block bit se k trace res h hp
    rw [ac_refine_noeob] at h
    cases hr1 : st.refill rd with
    | error e => rw [hr1] at h; exact absurd h (by simp)
    | ok trip =>
      obtain ⟨st1, rd1, b1⟩ := trip
      rw [hr1] at h
      dsimp only at h
      cases hdh : decode_huff st1 tbl (tbl.lookup (st1.peek_bits HUFF_LOOKAHEAD)) with
      | error e => rw [hdh] at h; exact absurd h (by simp)
      | ok pr =>
        obtain ⟨sym, st2⟩ := pr
        rw [hdh] at h
        dsimp only at h
        by_cases hs0 : i_and_pow2 sym 4 = 0
        · rw [if_pos hs0] at h
          by_cases hr15 : i32_sar sym 4 ≠ 15
          · rw [if_pos hr15] at h
            simp only [Except.ok.injEq] at h
            subst h
            intro p hmem
            rcases List.mem_append.1 hmem with hmem | hmem
            · exact hp p hmem
            · rcases List.mem_singleton.1 hmem with rfl
              exact Or.inl ⟨hs0, rfl⟩
          · rw [if_neg hr15] at h
            cases hadv : ac_refine_advance (se + 2) st2 rd1 block bit se k (i32_sar sym 4) with
            | error e => rw [hadv] at h; exact absurd h (by simp)
            | ok q =>
              obtain ⟨st3, rd3, block3, k3, r3⟩ := q
              rw [hadv] at h
              dsimp only at h
              by_cases hk : se < k3 + 1
              · rw [if_pos hk] at h
                simp only [Except.ok.injEq] at h
                subst h
                intro p hmem
                rcases List.mem_append.1 hmem with hmem | hmem
                · exact hp p hmem
                · rcases List.mem_singleton.1 hmem with rfl
                  exact Or.inl ⟨hs0, rfl⟩
              · rw [if_neg hk] at h
                refine ih _ _ _ _ _ _ _ _ _ h ?_
                intro p hmem
                rcases List.mem_append.1 hmem with hmem | hmem
                · exact hp p hmem
                · rcases List.mem_singleton.1 hmem with rfl
                  exact Or.inl ⟨hs0, rfl⟩
        · rw [if_neg hs0] at h
          by_cases hs1 : i_and_pow2 sym 4 ≠ 1
          · rw [if_pos hs1] at h
            exact absurd h (by simp)
          · rw [if_neg hs1] at h
            push_neg at hs1
            have hentry : refine_entry_ok bit
                (i32_sar sym 4, i_and_pow2 sym 4,
                  some (wrap16 (if st2.get_bit.1 = 1 then bit else -bit))) := by
              refine Or.inr ⟨hs1, ?_⟩
              by_cases hb : st2.get_bit.1 = 1
              · rw [if_pos hb]
                exact Or.inl rfl
              · rw [if_neg hb]
                exact Or.inr rfl
            cases hadv : ac_refine_advance (se + 2) st2.get_bit.2 rd1 block bit se k
                (i32_sar sym 4) with
            | error e => rw [hadv] at h; exact absurd h (by simp)
            | ok q =>
              obtain ⟨st3, rd3, block3, k3, r3⟩ := q
              rw [hadv] at h
              dsimp only at h
              by_cases hk : se < k3 + 1
              · rw [if_pos hk] at h
                simp only [Except.ok.injEq] at h
                subst h
                intro p hmem
                rcases List.mem_append.1 hmem with hmem | hmem
                · exact hp p hmem
                · rcases List.mem_singleton.1 hmem with rfl
                  exact hentry
              · rw [if_neg hk] at h
                refine ih _ _ _ _ _ _ _ _ _ h ?_
                intro p hmem
                rcases List.mem_append.1 hmem with hmem | hmem
                · exact hp p hmem
                · rcases List.mem_singleton.1 hmem with rfl
                  exact hentry

/-- **C8.** In a progressive AC-refinement scan, every `(run, size)` pair
decoded during a *successful* run of `decode_mcu_ac_refine` has size 0 or
1, and for size 1 the only coefficient literally emitted is
`±(1 << succ_low)` with the sign taken from the next bit; equivalently,
the routine returns a Huffman-decode error whenever a decoded pair has
any other size (the `symbol != 1` check at src/bitstream.rs line 615). -/
theorem decode_mcu_ac_refine_sizes (st : BitStream) (rd : Reader)
    (tbl : HuffmanTable) (block : List Int)
    (res : BitStream × Reader × List Int × List (Int × Int × Option Int))
    (h : decode_mcu_ac_refine st rd tbl block = .ok res) :
    ∀ p ∈ res.2.2.2, refine_entry_ok (wrap16 (i32_shl 1 st.successive_low)) p := by
  unfold decode_mcu_ac_refine at h
  dsimp only at h
  by_cases heob : st.eob_run = 0
  · rw [if_pos heob] at h
    cases hne : ac_refine_noeob (st.spec_end + 2) st rd tbl block
        (wrap16 (i32_shl 1 st.successive_low)) st.spec_end st.spec_start [] with
    | error e => rw [hne] at h; exact absurd h (by simp)
    | ok q =>
      obtain ⟨st1, rd1, block1, k1, trace1⟩ := q
      rw [hne] at h
      dsimp only at h
      have htr : ∀ p ∈ trace1,
          refine_entry_ok (wrap16 (i32_shl 1 st.successive_low)) p :=
        ac_refine_noeob_trace _ _ _ _ _ _ _ _ _ _ hne (by simp)
      by_cases hpos : 0 < st1.eob_run
      · rw [if_pos hpos] at h
        by_cases hblk : block1.drop 1 ≠ List.replicate 63 (0 : Int)
        · rw [if_pos hblk] at h
          cases hr2 : st1.refill rd1 with
          | error e => rw [hr2] at h; exact absurd h (by simp)
          | ok trip =>
            obtain ⟨st2, rd2, b2⟩ := trip
            rw [hr2] at h
            dsimp only at h
            cases htl : ac_refine_eobrun (st.spec_end + 2) st2 rd2 block1
                (wrap16 (i32_shl 1 st.successive_low)) st.spec_end k1 with
            | error e => rw [htl] at h; exact absurd h (by simp)
            | ok q2 =>
              obtain ⟨st3, rd3, block3⟩ := q2
              rw [htl] at h
              dsimp only at h
              simp only [Except.ok.injEq] at h
              subst h
              exact htr
        · rw [if_neg hblk] at h
          dsimp only at h
          simp only [Except.ok.injEq] at h
          subst h
          exact htr
      · rw [if_neg hpos] at h
        simp only [Except.ok.injEq] at h
        subst h
        exact htr
  · rw [if_neg heob] at h
    dsimp only at h
    by_cases hpos : 0 < st.eob_run
    · rw [if_pos hpos] at h
      by_cases hblk : block.drop 1 ≠ List.replicate 63 (0 : Int)
      · rw [if_pos hblk] at h
        cases hr2 : st.refill rd with
        | error e => rw [hr2] at h; exact absurd h (by simp)
        | ok trip =>
          obtain ⟨st2, rd2, b2⟩ := trip
          rw [hr2] at h
          dsimp only at h
          cases htl : ac_refine_eobrun (st.spec_end + 2) st2 rd2 block
              (wrap16 (i32_shl 1 st.successive_low)) st.spec_end st.spec_start with
          | error e => rw [htl] at h; exact absurd h (by simp)
          | ok q2 =>
            obtain ⟨st3, rd3, block3⟩ := q2
            rw [htl] at h
            dsimp only at h
            simp only [Except.ok.injEq] at h
            subst h
            intro p hmem
            exact absurd hmem (List.not_mem_nil p)
      · rw [if_neg hblk] at h
        dsimp only at h
        simp only [Except.ok.injEq] at h
        subst h
        intro p hmem
        exact absurd hmem (List.not_mem_nil p)
    · rw [if_neg hpos] at h
      simp only [Except.ok.injEq] at h
      subst h
      intro p hmem
      exact absurd hmem (List.not_mem_nil p)

instance : DecidableEq (List (Int × Int × Option Int)) := inferInstance

instance : DecidableEq (List Int × List (Int × Int × Option Int)) :=
  inferInstance

/-- Concrete instance of `decode_mcu_ac_refine_sizes`: a refinement scan
(band 63..63, succ_low 0) over an all-ones bitstream decodes one
`(run 0, size 1)` pair and emits exactly `+1 = +(1 << 0)`. -/
theorem decode_mcu_ac_refine_sizes_witness :
    refine_entry_ok (wrap16 (i32_shl 1 0)) (0, 1, some 1) := by
  have h := decode_mcu_ac_refine_sizes
    { buffer := 0, aligned_buffer := 2 ^ 64 - 1, bits_left := 40,
      marker := none, successive_high := 0, successive_low := 0,
      spec_start := 63, spec_end := 63, eob_run := 0 }
    ⟨[], 0⟩
    { maxcode := fun _ => 0x000FFFFF, offset := fun _ => 0,
      lookup := fun _ => 1 * 2 ^ 9 + 1, ac_lookup := none,
      bits := [], values := [] }
    (List.replicate 64 0)
    ({ buffer := 0, aligned_buffer := 2 ^ 64 - 4, bits_left := 38,
       marker := none, successive_high := 0, successive_low := 0,
       spec_start := 63, spec_end := 63, eob_run := 0 },
     ⟨[], 0⟩, (List.replicate 64 (0 : Int)).set 63 1,
     [((0 : Int), (1 : Int), some (1 : Int))])
    (by decide)
  exact h (0, 1, some 1) (by decide)

/-! ## Dequantization + integer IDCT (src/idct/scalar.rs)

The kernel operates on one 8×8 block at a time; `dequantize_and_idct_int`
iterates it over the blocks of a row vector with an output `stride`.  It
is modelled here at block granularity (`stride = 8`, `samp_factors =
v_samp = 1`: the output sample for row `r`, column `c` is written at
`8*r + c`).  The source relies on wrapping `i32` arithmetic (its own tests
are release-only "because IDCT depends on wrapping arithmetic"), so every
addition and multiplication wraps. -/

/-- `SCALE_BITS` (src/idct/scalar.rs, line 6). -/
def SCALE_BITS : Int := 512 + 65536 + 128 * 2 ^ 17

/-- Wrapping `i32` addition. -/
def wadd (a b : Int) : Int := wrap32 (a + b)

/-- Wrapping `i32` subtraction. -/
def wsub (a b : Int) : Int := wrap32 (a - b)

/-- Wrapping `i32` multiplication. -/
def wmul (a b : Int) : Int := wrap32 (a * b)

/-- `fsh`: multiply by 4096 (`x << 12`). -/
def fsh (x : Int) : Int := wrap32 (x * 2 ^ 12)

/-- `clamp`: clamp to `0..=255` (`a.max(0).min(255)`). -/
def clamp (a : Int) : Int := min (max a 0) 255

/-- `dequantize`: `i32::from(a) * b`. -/
def dequantize (a b : Int) : Int := wmul a b

/-- First (column) pass of the slow path (lines 79-167): one column `ptr`
of dequantized coefficients through the even/odd butterfly, scaled down by
`>> 10`; entry `row` of the result is `tmp[ptr + 8*row]`.  The constant
`4816` is `f2f(1.175875602)` (the second pass computes it through `f2f`;
the first pass hard-codes it). -/
def idct_pass1_col (v q : List Int) (ptr : Nat) : List Int :=
  let deq := fun i => dequantize (v.getD i 0) (q.getD i 0)
  let p2 := deq (ptr + 16)
  let p3 := deq (ptr + 48)
  let p1 := wmul (wadd p2 p3) 2217
  let t2 := wadd p1 (wmul p3 (-7567))
  let t3 := wadd p1 (wmul p2 3135)
  let p2e := deq ptr
  let p3e := deq (32 + ptr)
  let t0 := fsh (wadd p2e p3e)
  let t1 := fsh (wsub p2e p3e)
  let x0 := wadd (wadd t0 t3) 512
  let x3 := wadd (wsub t0 t3) 512
  let x1 := wadd (wadd t1 t2) 512
  let x2 := wadd (wsub t1 t2) 512
  let t0o := deq (ptr + 56)
  let t1o := deq (ptr + 40)
  let t2o := deq (ptr + 24)
  let t3o := deq (ptr + 8)
  let p3o := wadd t0o t2o
  let p4o := wadd t1o t3o
  let p1o := wadd t0o t3o
  let p2o := wadd t1o t2o
  let p5 := wmul (wadd p3o p4o) 4816
  let t0m := wmul t0o 1223
  let t1m := wmul t1o 8410
  let t2m := wmul t2o 12586
  let t3m := wmul t3o 6149
  let p1f := wadd p5 (wmul p1o (-3685))
  let p2f := wadd p5 (wmul p2o (-10497))
  let p3f := wmul p3o (-8034)
  let p4f := wmul p4o (-1597)
  let t3f := wadd t3m (wadd p1f p4f)
  let t2f := wadd t2m (wadd p2f p3f)
  let t1f := wadd t1m (wadd p2f p4f)
  let t0f := wadd t0m (wadd p1f p3f)
  [i32_sar (wadd x0 t3f) 10,
   i32_sar (wadd x1 t2f) 10,
   i32_sar (wadd x2 t1f) 10,
   i32_sar (wadd x3 t0f) 10,
   i32_sar (wsub x3 t0f) 10,
   i32_sar (wsub x2 t1f) 10,
   i32_sar (wsub x1 t2f) 10,
   i32_sar (wsub x0 t3f) 10]

/-- Second (row) pass of the slow path (lines 170-274): row `i` of the
intermediate through the same butterfly with the `SCALE_BITS` rounding
bias, `>> 17`, and the clamp to `0..=255`. -/
def idct_pass2_row (tmp : Nat → Int) (i : Nat) : List Int :=
  let p2 := tmp (i + 2)
  let p3 := tmp (i + 6)
  let p1 := wmul (wadd p2 p3) 2217
  let t2 := wadd p1 (wmul p3 (-7567))
  let t3 := wadd p1 (wmul p2 3135)
  let p2e := tmp i
  let p3e := tmp (i + 4)
  let t0 := fsh (wadd p2e p3e)
  let t1 := fsh (wsub p2e p3e)
  let x0 := wadd (wadd t0 t3) SCALE_BITS
  let x3 := wadd (wsub t0 t3) SCALE_BITS
  let x1 := wadd (wadd t1 t2) SCALE_BITS
  let x2 := wadd (wsub t1 t2) SCALE_BITS
  let t0o := tmp (i + 7)
  let t1o := tmp (i + 5)
  let t2o := tmp (i + 3)
  let t3o := tmp (i + 1)
  let p3o := wadd t0o t2o
  let p4o := wadd t1o t3o
  let p1o := wadd t0o t3o
  let p2o := wadd t1o t2o
  let p5 := wmul (wadd p3o p4o) 4816
  let t0m := wmul t0o 1223
  let t1m := wmul t1o 8410
  let t2m := wmul t2o 12586
  let t3m := wmul t3o 6149
  let p1f := wadd p5 (wmul p1o (-3685))
  let p2f := wadd p5 (wmul p2o (-10497))
  let p3f := wmul p3o (-8034)
  let p4f := wmul p4o (-1597)
  let t3f := wadd t3m (wadd p1f p4f)
  let t2f := wadd t2m (wadd p2f p3f)
  let t1f := wadd t1m (wadd p2f p4f)
  let t0f := wadd t0m (wadd p1f p3f)
  [clamp (i32_sar (wadd x0 t3f) 17),
   clamp (i32_sar (wadd x1 t2f) 17),
   clamp (i32_sar (wadd x2 t1f) 17),
   clamp (i32_sar (wadd x3 t0f) 17),
   clamp (i32_sar (wsub x3 t0f) 17),
   clamp (i32_sar (wsub x2 t1f) 17),
   clamp (i32_sar (wsub x1 t2f) 17),
   clamp (i32_sar (wsub x0 t3f) 17)]

/-- The zero-AC fast path value (src/idct/scalar.rs, line 48):
`((vector[0].wrapping_mul(qt_table.0[0] as i16)) >> 3) + 128`, computed
entirely in `i16` arithmetic with *no* clamp. -/
def idct_fast_value (dc qt0 : Int) : Int :=
  i32_sar (wrap16 (dc * wrap16 qt0)) 3 + 128

/-- `dequantize_and_idct_int` (src/idct/scalar.rs, lines 19-282)
specialized to one 64-coefficient block with `stride = 8`: when the 63 AC
coefficients are all zero, broadcast `idct_fast_value`; otherwise run the
two IDCT passes (output sample `8*r + c` is entry `c` of row `r`). -/
def dequantize_and_idct_block (v q : List Int) : List Int :=
  if v.drop 1 = List.replicate 63 (0 : Int) then
    List.replicate 64 (idct_fast_value (v.getD 0 0) (q.getD 0 0))
  else
    (List.range 64).map fun n =>
      (idct_pass2_row
        (fun m => (idct_pass1_col v q (m % 8)).getD (m / 8) 0)
        (8 * (n / 8))).getD (n % 8) 0

/-- The broadcast value the claim states for the zero-AC fast path:
`clamp((dc × qt[0]) >> 3) + 128` with the clamp restricting to 0..=255. -/
def spec_fast_broadcast (dc qt0 : Int) : Int :=
  clamp (i32_sar (dc * qt0) 3) + 128

/-- **C2 (counterexample).** For the zero-AC block with `dc = 20` and
`qt[0] = 200`, the scalar fast path writes 64 samples of
`(20·200 >> 3) + 128 = 628`, not the claimed
`clamp(20·200 >> 3) + 128 = 255 + 128 = 383`: the source's fast path
(src/idct/scalar.rs line 48) performs no clamping at all. -/
theorem idct_zero_ac_no_clamp_counterexample :
    dequantize_and_idct_block (20 :: List.replicate 63 0)
      (200 :: List.replicate 63 0) = List.replicate 64 628 ∧
    spec_fast_broadcast 20 200 = 383 ∧ (628 : Int) ≠ 383 := by
  refine ⟨by decide, by decide, by decide⟩

/-- **C2 (amended).** For every 8×8 coefficient block whose 63 AC
coefficients are all zero and every quantization table, the scalar
dequantize-and-IDCT routine writes all 64 output samples equal to the
single broadcast value `(dc *₁₆ qt[0]) >> 3 + 128`, computed in wrapping
16-bit arithmetic with *no* clamping (`dc` the DC coefficient, `qt[0]`
truncated to `i16`). -/
theorem idct_zero_ac_fast_path (v q : List Int) (_hv : v.length = 64)
    (hz : v.drop 1 = List.replicate 63 0) :
    dequantize_and_idct_block v q =
      List.replicate 64
        (i32_sar (wrap16 (v.getD 0 0 * wrap16 (q.getD 0 0))) 3 + 128) := by
  unfold dequantize_and_idct_block
  rw [if_pos hz]
  rfl

/-- Concrete instance of `idct_zero_ac_fast_path`: an all-zero-AC block
with `DC = 1` and `QT[0] = 1` decodes to 64 samples of `128 + (1 >> 3) =
128` (the specification's boundary scenario). -/
theorem idct_zero_ac_fast_path_witness :
    dequantize_and_idct_block (1 :: List.replicate 63 0)
      (1 :: List.replicate 63 0) = List.replicate 64 128 := by
  have h := idct_zero_ac_fast_path (1 :: List.replicate 63 0)
    (1 :: List.replicate 63 0) (by decide) (by decide)
  rw [h]
  decide

/-! ## Start-of-scan parsing (`parse_sos`, src/headers.rs lines 357-486) -/

/-- Modelled from the spec: `read_byte` lives in `misc.rs`, which is not
part of the provided sources; per §2 the byte source "wraps the input
buffer" and reads fail with an error once the data is exhausted. -/
def read_byte_h (bytes : List Nat) (pos : Nat) :
    Except DecodeErrors (Nat × Nat) :=
  match bytes.get? pos with
  | some b => .ok (b, pos + 1)
  | none => .error .format

/-- Modelled from the spec: `read_u16_be` of `misc.rs` — "reads big-endian
integers" — two bytes, most significant first. -/
def read_u16_be_h (bytes : List Nat) (pos : Nat) :
    Except DecodeErrors (Nat × Nat) :=
  match read_byte_h bytes pos with
  | .error e => .error e
  | .ok (b0, pos) =>
    match read_byte_h bytes pos with
    | .error e => .error e
    | .ok (b1, pos) => .ok (b0 <<< 8 ||| b1, pos)

/-- The slice of `Components` that `parse_sos` reads and writes. -/
structure SosComponent where
  id : Nat
  dc_huff_table : Nat
  ac_huff_table : Nat
deriving DecidableEq

/-- The slice of the `Decoder` state that `parse_sos` touches:
`components` (from SOF), `info.components` (= `Nf`), and the scan
parameters it populates. -/
structure SosDecoder where
  components : List SosComponent
  info_components : Nat
  num_scans : Nat
  z_order : List Nat
  spec_start : Nat
  spec_end : Nat
  succ_high : Nat
  succ_low : Nat
deriving DecidableEq

/-- The `while j < image.info.components` search for the component with
the given id (src/headers.rs lines 423-431).  `fuel` is passed as
`info_components` so the recursion is structural; indexing past
`components` panics (`oobIndex`). -/
def find_comp_loop (comps : List SosComponent) (nf id j fuel : Nat) :
    Except DecodeErrors Nat :=
  match fuel with
  | 0 => .ok j
  | fuel + 1 =>
    if j < nf then
      match comps.get? j with
      | none => .error .oobIndex
      | some c =>
        if c.id = id then .ok j
        else find_comp_loop comps nf id (j + 1) fuel
    else .ok j

/-- The `for i in 0..ns` loop of `parse_sos` (src/headers.rs lines
397-445): read a component id, reject ids beyond the component list and
duplicate ids (via the 4-entry `seen` array, whose out-of-range access is
a panic), find the matching frame component, and store its Huffman table
selectors and scan order. -/
def sos_comp_loop (bytes : List Nat) (pos : Nat) (dec : SosDecoder)
    (seen : List Bool) (i n : Nat) :
    Except DecodeErrors (Nat × SosDecoder) :=
  match n with
  | 0 => .ok (pos, dec)
  | n + 1 =>
    match read_byte_h bytes pos with
    | .error e => .error e
    | .ok (id, pos) =>
      if dec.components.length < id then .error .sofError
      else
        match seen.get? id with
        | none => .error .oobIndex
        | some s =>
          if s then .error .sofError
          else
            let seen := seen.set id true
            match read_byte_h bytes pos with
            | .error e => .error e
            | .ok (y, pos) =>
              match find_comp_loop dec.components dec.info_components id 0
                  dec.info_components with
              | .error e => .error e
              | .ok j =>
                if j = dec.info_components then .error .sofError
                else
                  match dec.components.get? j with
                  | none => .error .oobIndex
                  | some cj =>
                    let cj' := { cj with
                      dc_huff_table := (y >>> 4) &&& 0xF,
                      ac_huff_table := y &&& 0xF }
                    let comps := dec.components.set j cj'
                    let dec := { dec with
                      components := comps,
                      z_order := dec.z_order.set i j }
                    sos_comp_loop bytes pos dec seen (i + 1) n

/-- `parse_sos` (src/headers.rs, lines 357-486). -/
def parse_sos (bytes : List Nat) (image : SosDecoder) :
    Except DecodeErrors SosDecoder :=
  let seen := List.replicate 4 false
  match read_u16_be_h bytes 0 with
  | .error e => .error e
  | .ok (ls, pos) =>
    match read_byte_h bytes pos with
    | .error e => .error e
    | .ok (ns, pos) =>
      let image := { image with num_scans := ns }
      if ls ≠ 6 + 2 * ns then .error .sosError
      else if ¬ (1 ≤ ns ∧ ns < 4) then .error .sosError
      else if image.info_components = 0 then .error .sofError
      else
        match sos_comp_loop bytes pos image seen 0 ns with
        | .error e => .error e
        | .ok (pos, image) =>
          match read_byte_h bytes pos with
          | .error e => .error e
          | .ok (b1, pos) =>
            let image := { image with spec_start := b1 &&& 63 }
            match read_byte_h bytes pos with
            | .error e => .error e
            | .ok (b2, pos) =>
              let image := { image with spec_end := b2 &&& 63 }
              match read_byte_h bytes pos with
              | .error e => .error e
              | .ok (ba, _pos) =>
                let image := { image with succ_high := ba >>> 4 }
                if 13 < image.succ_high then .error .sofError
                else
                  let image := { image with succ_low := ba &&& 0xF }
                  if 13 < image.succ_low then .error .sofError
                  else .ok image

theorem find_comp_loop_found (comps : List SosComponent) (nf id : Nat) :
    ∀ (fuel j res : Nat), j + fuel = nf →
    find_comp_loop comps nf id j fuel = .ok res →
    (∃ c, comps.get? res = some c ∧ c.id = id) ∨ res = nf := by
  intro fuel
  induction fuel with
  | zero =>
    intro j res hsum h
    simp only [find_comp_loop, Except.ok.injEq] at h
    subst h
    right
    omega
  | succ fuel ih =>
    intro j res hsum h
    rw [find_comp_loop] at h
    rw [if_pos (by omega)] at h
    cases hg : comps.get? j with
    | none => rw [hg] at h; exact absurd h (by simp)
    | some c =>
      rw [hg] at h
      dsimp only at h
      by_cases hid : c.id = id
      · rw [if_pos hid] at h
        simp only [Except.ok.injEq] at h
        subst h
        exact Or.inl ⟨c, hg, hid⟩
      · rw [if_neg hid] at h
        exact ih (j + 1) res (by omega) h

theorem sos_comp_loop_bound (bytes : List Nat) :
    ∀ (n pos i : Nat) (dec : SosDecoder) (seen : List Bool)
      (S : Finset Nat) (res : Nat × SosDecoder),
    sos_comp_loop bytes pos dec seen i n = .ok res →
    (∀ id, seen.get? id = some true ↔ id ∈ S) →
    (∀ id ∈ S, ∃ j c, dec.components.get? j = some c ∧ c.id = id) →
    dec.info_components = dec.components.length →
    S.card + n ≤ dec.components.length := by
  intro n
  induction n with
  | zero =>
    intro pos i dec seen S res h hseen hwit hc
    simp only [Nat.add_zero]
    classical
    have hmono : S.card ≤ (Finset.range dec.components.length).card := by
      apply Finset.card_le_card_of_injOn
        (fun id => if hw : ∃ j c, dec.components.get? j = some c ∧ c.id = id
          then hw.choose else 0)
      · intro a ha
        have hw := hwit a ha
        simp only [dif_pos hw, Finset.mem_range]
        obtain ⟨c, hg, -⟩ := hw.choose_spec
        rw [List.get?_eq_getElem?] at hg
        exact (List.getElem?_eq_some_iff.mp hg).1
      · intro a1 ha1 a2 ha2 heq
        have hw1 := hwit a1 ha1
        have hw2 := hwit a2 ha2
        simp only [dif_pos hw1, dif_pos hw2] at heq
        obtain ⟨c1, hg1, hid1⟩ := hw1.choose_spec
        obtain ⟨c2, hg2, hid2⟩ := hw2.choose_spec
        rw [heq] at hg1
        rw [hg1] at hg2
        simp only [Option.some.injEq] at hg2
        rw [← hid1, ← hid2, hg2]
    simpa using hmono
  | succ n ih =>
    intro pos i dec seen S res h hseen hwit hc
    rw [sos_comp_loop] at h
    cases hid : read_byte_h bytes pos with
    | error e => rw [hid] at h; exact absurd h (by simp)
    | ok pr =>
      obtain ⟨id, pos1⟩ := pr
      rw [hid] at h
      dsimp only at h
      by_cases hlen : dec.components.length < id
      · rw [if_pos hlen] at h; exact absurd h (by simp)
      · rw [if_neg hlen] at h
        cases hsg : seen.get? id with
        | none => rw [hsg] at h; exact absurd h (by simp)
        | some s =>
          rw [hsg] at h
          dsimp only at h
          by_cases hs : s = true
          · rw [if_pos (by simp [hs])] at h
            exact absurd h (by simp)
          · rw [if_neg (by simp [hs])] at h
            cases hyb : read_byte_h bytes pos1 with
            | error e => rw [hyb] at h; exact absurd h (by simp)
            | ok pry =>
              obtain ⟨y, pos2⟩ := pry
              rw [hyb] at h
              dsimp only at h
              cases hfind : find_comp_loop dec.components dec.info_components
                  id 0 dec.info_components with
              | error e => rw [hfind] at h; exact absurd h (by simp)
              | ok j =>
                rw [hfind] at h
                dsimp only at h
                by_cases hjnf : j = dec.info_components
                · rw [if_pos hjnf] at h; exact absurd h (by simp)
                · rw [if_neg hjnf] at h
                  cases hgj : dec.components.get? j with
                  | none => rw [hgj] at h; exact absurd h (by simp)
                  | some cj =>
                    rw [hgj] at h
                    dsimp only at h
                    -- the found component really has the scanned id
                    have hfound :
                        (∃ c, dec.components.get? j = some c ∧ c.id = id) ∨
                          j = dec.info_components :=
                      find_comp_loop_found dec.components dec.info_components
                        id dec.info_components 0 j (by omega) hfind
                    have hcjid : cj.id = id := by
                      rcases hfound with ⟨c, hg, hcid⟩ | hj
                      · rw [hgj] at hg
                        simp only [Option.some.injEq] at hg
                        rw [hg]
                        exact hcid
                      · exact absurd hj hjnf
                    have hidnotin : id ∉ S := by
                      intro hin
                      have := (hseen id).mpr hin
                      rw [hsg] at this
                      simp only [Option.some.injEq] at this
                      exact hs this
                    have hidlt : id < seen.length := by
                      rw [List.get?_eq_getElem?] at hsg
                      exact (List.getElem?_eq_some_iff.mp hsg).1
                    have hjlt : j < dec.components.length := by
                      rw [List.get?_eq_getElem?] at hgj
                      exact (List.getElem?_eq_some_iff.mp hgj).1
                    have hseen' : ∀ id',
                        (seen.set id true).get? id' = some true ↔
                          id' ∈ insert id S := by
                      intro id'
                      rw [List.get?_eq_getElem?, List.getElem?_set]
                      by_cases hidq : id = id'
                      · subst hidq
                        simp [hidlt]
                      · rw [if_neg hidq, ← List.get?_eq_getElem?, hseen id',
                          Finset.mem_insert]
                        constructor
                        · exact Or.inr
                        · rintro (heq | hmem)
                          · exact absurd heq.symm hidq
                          · exact hmem
                    have hwit' : ∀ id' ∈ insert id S, ∃ j' c,
                        (dec.components.set j
                          { cj with dc_huff_table := (y >>> 4) &&& 0xF,
                                    ac_huff_table := y &&& 0xF }).get? j' =
                            some c ∧ c.id = id' := by
                      intro id' hin
                      rcases Finset.mem_insert.mp hin with rfl | hin
                      · refine ⟨j, ⟨cj.id, (y >>> 4) &&& 0xF, y &&& 0xF⟩, ?_, ?_⟩
                        · rw [List.get?_eq_getElem?, List.getElem?_set,
                            if_pos rfl, if_pos hjlt]
                        · exact hcjid
                      · obtain ⟨j', c', hg', hid'⟩ := hwit id' hin
                        by_cases hjq : j = j'
                        · subst hjq
                          rw [hgj] at hg'
                          simp only [Option.some.injEq] at hg'
                          refine ⟨j, ⟨cj.id, (y >>> 4) &&& 0xF, y &&& 0xF⟩, ?_, ?_⟩
                          · rw [List.get?_eq_getElem?, List.getElem?_set,
                              if_pos rfl, if_pos hjlt]
                          · show cj.id = id'
                            rw [← hg'] at hid'
                            exact hid'
                        · refine ⟨j', c', ?_, hid'⟩
                          rw [List.get?_eq_getElem?, List.getElem?_set,
                            if_neg hjq, ← List.get?_eq_getElem?]
                          exact hg'
                    have hb := ih pos2 (i + 1) _ (seen.set id true)
                      (insert id S) res h hseen' hwit' (by simpa using hc)
                    rw [Finset.card_insert_of_not_mem hidnotin] at hb
                    simp only [List.length_set] at hb
                    omega

/-- **C9.** `parse_sos` accepts a start-of-scan header only if its length
`Ls` equals `6 + 2·Ns` and the scan component count satisfies `1 ≤ Ns ≤
Nf` (`Nf` = the frame component count): on success the first two bytes
form exactly `6 + 2·Ns`, `Ns ≥ 1`, and — because each scan component id
must match a distinct frame component — `Ns` cannot exceed the number of
frame components.  (The code checks `Ns < 4` directly; `Ns ≤ Nf` follows
from the id matching.) -/
theorem parse_sos_scan_header_spec (bytes : List Nat)
    (image image' : SosDecoder)
    (hc : image.info_components = image.components.length)
    (h : parse_sos bytes image = .ok image') :
    (bytes.getD 0 0 <<< 8 ||| bytes.getD 1 0) = 6 + 2 * bytes.getD 2 0 ∧
    1 ≤ bytes.getD 2 0 ∧ bytes.getD 2 0 ≤ image.components.length := by
  unfold parse_sos at h
  cases h16 : read_u16_be_h bytes 0 with
  | error e => rw [h16] at h; exact absurd h (by simp)
  | ok pr =>
    obtain ⟨ls, pos1⟩ := pr
    rw [h16] at h
    dsimp only at h
    cases hb3 : read_byte_h bytes pos1 with
    | error e => rw [hb3] at h; exact absurd h (by simp)
    | ok prn =>
      obtain ⟨ns, pos2⟩ := prn
      rw [hb3] at h
      dsimp only at h
      -- decode the two reads into list entries
      have h16' : ls = bytes.getD 0 0 <<< 8 ||| bytes.getD 1 0 ∧ pos1 = 2 := by
        unfold read_u16_be_h read_byte_h at h16
        cases hg0 : bytes.get? 0 with
        | none => rw [hg0] at h16; exact absurd h16 (by simp)
        | some b0 =>
          rw [hg0] at h16
          dsimp only at h16
          cases hg1 : bytes.get? 1 with
          | none => rw [hg1] at h16; exact absurd h16 (by simp)
          | some b1 =>
            rw [hg1] at h16
            dsimp only at h16
            simp only [Except.ok.injEq, Prod.mk.injEq] at h16
            obtain ⟨hls, hpos⟩ := h16
            rw [List.getD_eq_getElem?_getD, List.getD_eq_getElem?_getD,
              ← List.get?_eq_getElem?, ← List.get?_eq_getElem?, hg0, hg1]
            exact ⟨by rw [← hls]; rfl, by omega⟩
      obtain ⟨hls, rfl⟩ := h16'
      have hns : ns = bytes.getD 2 0 := by
        unfold read_byte_h at hb3
        cases hg2 : bytes.get? 2 with
        | none => rw [hg2] at hb3; exact absurd hb3 (by simp)
        | some b2 =>
          rw [hg2] at hb3
          simp only [Except.ok.injEq, Prod.mk.injEq] at hb3
          rw [List.getD_eq_getElem?_getD, ← List.get?_eq_getElem?, hg2]
          exact hb3.1.symm
      by_cases hlen : ls ≠ 6 + 2 * ns
      · rw [if_pos hlen] at h; exact absurd h (by simp)
      · rw [if_neg hlen] at h
        push_neg at hlen
        by_cases hrange : ¬ (1 ≤ ns ∧ ns < 4)
        · rw [if_pos hrange] at h; exact absurd h (by simp)
        · rw [if_neg hrange] at h
          push_neg at hrange
          by_cases hzero : image.info_components = 0
          · rw [if_pos hzero] at h; exact absurd h (by simp)
          · rw [if_neg hzero] at h
            cases hloop : sos_comp_loop bytes pos2
                { image with num_scans := ns } (List.replicate 4 false) 0 ns with
            | error e => rw [hloop] at h; exact absurd h (by simp)
            | ok res =>
              have hbound := sos_comp_loop_bound bytes ns pos2 0
                { image with num_scans := ns } (List.replicate 4 false)
                (∅ : Finset Nat) res hloop ?_ (by simp) (by simpa using hc)
              · have hle : ns ≤ image.components.length := by
                  simpa using hbound
                rw [← hls, ← hns]
                refine ⟨hlen, ?_, hle⟩
                rcases hrange with ⟨h1, -⟩
                exact h1
              · intro id
                simp only [List.get?_eq_getElem?, List.getElem?_replicate]
                constructor
                · intro hsome
                  by_cases hid4 : id < 4
                  · rw [if_pos hid4] at hsome
                    exact absurd hsome (by simp)
                  · rw [if_neg hid4] at hsome
                    exact absurd hsome (by simp)
                · intro hmem
                  exact absurd hmem (Finset.not_mem_empty id)

/-- Concrete instance of `parse_sos_scan_header_spec`: a one-component
scan header of length 8 over a one-component frame parses successfully
and satisfies `Ls = 6 + 2·Ns`, `1 ≤ Ns ≤ Nf`. -/
theorem parse_sos_scan_header_spec_witness :
    ((0 : Nat) <<< 8 ||| 8) = 6 + 2 * 1 ∧ 1 ≤ 1 ∧
      1 ≤ ([⟨1, 0, 0⟩] : List SosComponent).length := by
  have h := parse_sos_scan_header_spec [0, 8, 1, 1, 0, 0, 63, 0]
    { components := [⟨1, 0, 0⟩], info_components := 1, num_scans := 0,
      z_order := [0, 0, 0, 0], spec_start := 0, spec_end := 0,
      succ_high := 0, succ_low := 0 }
    { components := [⟨1, 0, 0⟩], info_components := 1, num_scans := 1,
      z_order := [0, 0, 0, 0], spec_start := 0, spec_end := 63,
      succ_high := 0, succ_low := 0 }
    (by decide) (by decide)
  exact h

/-! ## Output buffer length of the baseline decode
(`Decoder::decode_mcu_ycbcr_baseline`, src/mcu.rs lines 127-368) -/

/-- Modelled from the spec: `SubSampRatios` lives in `components.rs`,
which is not part of the provided sources; §3 lists
`sub_sample_ratio ∈ {None, H, V, HV, Other}`. -/
inductive SubSampRatios where
  | noSubSamp
  | H
  | V
  | HV
  | other
deriving DecidableEq

/-- The output-buffer geometry of `decode_mcu_ycbcr_baseline`: MCU-row
count (src/mcu.rs lines 137-169, `u16` additions wrap), the allocation
`vec![0; capacity * ncomp]` with `capacity = (width+7)·(height+7)` (line
173), the per-row `chunks_exact_mut(width·ncomp·8·h_max·v_max)` whose
`next().unwrap()` panics when the chunks run out (lines 224-225, 348),
and the final `truncate(width·height·ncomp)` (lines 362-366).  The
entropy-decoding loop neither resizes the buffer (it writes through the
chunks) nor affects the returned length, so it is elided; `none` marks
the panics, and a decode error simply means no buffer is returned, so
the claim's "completes successfully" implies a `some` here. -/
def decode_mcu_ycbcr_baseline_output_len (width height : Nat)
    (interleaved : Bool) (ratio : SubSampRatios)
    (mcuX mcuY hMax vMax cOut : Nat) : Option Nat :=
  let mwhb :=
    if interleaved then
      if ratio = SubSampRatios.H then (mcuX * 2, mcuY / 2, 1)
      else if ratio = SubSampRatios.HV then (mcuX, mcuY / 2, 2)
      else (mcuX, mcuY, 1)
    else (((width + 7) % 2 ^ 16) / 8, ((height + 7) % 2 ^ 16) / 8, 1)
  let mcuHeight := mwhb.2.1
  let capacity := ((width + 7) % 2 ^ 16) * ((height + 7) % 2 ^ 16)
  let total := capacity * cOut
  let chunkSize := width * cOut * 8 * hMax * vMax
  if chunkSize = 0 then none
  else if mcuHeight ≤ total / chunkSize then
    some (min (width * height * cOut) total)
  else none

/-- **C1 (counterexample).** For a grayscale (1×1-sampled) image of
width 8 and height 65530, the `u16` addition `height + 7` wraps to 1, so
`mcu_height = 0`: the decode loop never runs, the function returns the
15-byte padded allocation, and `truncate(8·65530·1)` cannot lengthen it —
the "successful" decode returns 15 bytes instead of the claimed
`width·height·components_out = 524240`. -/
theorem baseline_output_len_counterexample :
    decode_mcu_ycbcr_baseline_output_len 8 65530 false SubSampRatios.other
      0 0 1 1 1 = some 15 ∧
    8 * 65530 * 1 = 524240 ∧ (15 : Nat) ≠ 524240 := by
  refine ⟨by decide, by decide, by decide⟩

/-- **C1 (amended).** For every baseline decode that completes
successfully on an image with `width, height ≤ 65528` (so the `u16`
`+ 7` padding arithmetic does not wrap), the returned pixel buffer has
length exactly `width × height × components_out`: the padded allocation
`(width+7)(height+7)·c` is at least `width·height·c`, so the final
truncation leaves exactly that many bytes. -/
theorem baseline_output_len_spec (width height : Nat) (interleaved : Bool)
    (ratio : SubSampRatios) (mcuX mcuY hMax vMax cOut L : Nat)
    (_hw1 : 1 ≤ width) (_hh1 : 1 ≤ height)
    (hw : width + 7 < 2 ^ 16) (hh : height + 7 < 2 ^ 16)
    (h : decode_mcu_ycbcr_baseline_output_len width height interleaved ratio
      mcuX mcuY hMax vMax cOut = some L) :
    L = width * height * cOut := by
  unfold decode_mcu_ycbcr_baseline_output_len at h
  dsimp only at h
  have hcap : width * height * cOut ≤
      ((width + 7) % 2 ^ 16) * ((height + 7) % 2 ^ 16) * cOut := by
    rw [Nat.mod_eq_of_lt hw, Nat.mod_eq_of_lt hh]
    exact Nat.mul_le_mul_right _ (Nat.mul_le_mul (by omega) (by omega))
  split_ifs at h
  all_goals simp only [Option.some.injEq] at h
  all_goals omega

/-- Concrete instance of `baseline_output_len_spec`: a 16×16 RGB decode
(3 output components) returns exactly `16·16·3 = 768` bytes. -/
theorem baseline_output_len_spec_witness :
    decode_mcu_ycbcr_baseline_output_len 16 16 false SubSampRatios.other
      2 2 1 1 3 = some (16 * 16 * 3) := by
  have hsome : decode_mcu_ycbcr_baseline_output_len 16 16 false
      SubSampRatios.other 2 2 1 1 3 = some 768 := by decide
  have h := baseline_output_len_spec 16 16 false SubSampRatios.other
    2 2 1 1 3 768 (by norm_num) (by norm_num) (by norm_num) (by norm_num)
    hsome
  rw [hsome, h]

end ZuneJpeg
